import Mathlib

/-!
# filestats-go-channels: line, word and letter statistics over a stream of lines

A shallow embedding of `filestats.go` and a verification of its specification.

* A Go `string` is represented by a Lean `String`; `range *line` yields the
  code points `line.data` (Go decodes an invalid byte to U+FFFD, which is a
  code point like any other here).
* `processFile` sends `&line`, the address of a variable that is declared
  anew for every line and never written again; the embedding sends the string.
* A channel that is fed and then closed is represented by the finite list of
  the values received before the close.  Every accumulator is a loop
  `for { line, more := <-c; if more { ... } else { print; Done; return } }`;
  its embedding is the recursion over that list, the empty list being the
  moment `more` is false.  The call `waitGroup.Done()` and the scheduling of
  the goroutines are embedded separately, as a transition system (`step`).
* The Go `int` counters of the accumulators only count up from zero, by at
  most the length of a line per line received; they are embedded as
  unbounded `Nat` (a 64-bit `int` does not wrap before `2^63` such steps).
  Only `maxVal`, which starts at -1, is an `Int`.
* `float64` is embedded exactly: a finite value is a pair of a significand
  and a binary exponent, conversion and division round to the nearest value
  of 53 significant bits, ties to even, and `%.2f` rounds the exact binary
  value to hundredths, ties to even.
* `fmt.Printf` is embedded as the value `Output`, one constructor per format
  string of the program, carrying the arguments; `Output.text` renders it.
* The functions of Go's standard library that the program calls
  (`unicode.IsLetter`, `unicode.ToLower`, `unicode.IsSpace`,
  `strings.Fields`) are embedded from the library's source; the range tables
  of package `unicode` above Latin-1 are parameters (`UnicodeTables`).
-/

namespace Filestats

/-! ## Package `unicode` -/

/-- The range tables of package `unicode` for code points above `MaxLatin1`,
which the program reaches through `unicode.IsLetter` and `unicode.ToLower`
(and `IsLower`, used to state what a lowercase letter is). -/
structure UnicodeTables where
  /-- Membership in `unicode.Letter`, for code points above Latin-1. -/
  Letter : Char → Bool
  /-- Membership in `unicode.Lower`, for code points above Latin-1. -/
  Lower : Char → Bool
  /-- The lower-case mapping of `unicode.CaseRanges`, for code points above Latin-1. -/
  toLowerCase : Char → Char

/-- The constant `unicode.MaxASCII`. -/
def MaxASCII : Nat := 0x7F

/-- The constant `unicode.MaxLatin1`. -/
def MaxLatin1 : Nat := 0xFF

/-- Latin-1 code points whose entry in `unicode.properties` has a letter bit
(`pLu`, `pLl` or `pLo`): A-Z, a-z, U+00AA, U+00B5, U+00BA, U+00C0-U+00D6,
U+00D8-U+00F6, U+00F8-U+00FF. -/
def latin1Letter (r : Nat) : Bool :=
  (0x41 ≤ r && r ≤ 0x5A) || (0x61 ≤ r && r ≤ 0x7A) || r == 0xAA || r == 0xB5 || r == 0xBA ||
  (0xC0 ≤ r && r ≤ 0xD6) || (0xD8 ≤ r && r ≤ 0xF6) || (0xF8 ≤ r && r ≤ 0xFF)

/-- Latin-1 code points whose entry in `unicode.properties` is exactly `pLl`
(U+00AA and U+00BA are `pLo`, the capitals are `pLu`). -/
def latin1Lower (r : Nat) : Bool :=
  (0x61 ≤ r && r ≤ 0x7A) || r == 0xB5 || (0xDF ≤ r && r ≤ 0xF6) || (0xF8 ≤ r && r ≤ 0xFF)

/-- Go's `unicode.IsLetter`. -/
def IsLetter (T : UnicodeTables) (r : Char) : Bool :=
  if r.toNat ≤ MaxLatin1 then latin1Letter r.toNat else T.Letter r

/-- Go's `unicode.IsLower`. -/
def IsLower (T : UnicodeTables) (r : Char) : Bool :=
  if r.toNat ≤ MaxLatin1 then latin1Lower r.toNat else T.Lower r

/-- Go's `unicode.To(unicode.LowerCase, r)`: within Latin-1 the entries of
`CaseRanges` with a non-zero lower delta are U+0041-U+005A, U+00C0-U+00D6 and
U+00D8-U+00DE, each with delta 32. -/
def toLowerCaseRanges (T : UnicodeTables) (r : Char) : Char :=
  if r.toNat ≤ MaxLatin1 then
    if (0x41 ≤ r.toNat && r.toNat ≤ 0x5A) || (0xC0 ≤ r.toNat && r.toNat ≤ 0xD6) ||
        (0xD8 ≤ r.toNat && r.toNat ≤ 0xDE) then Char.ofNat (r.toNat + 32)
    else r
  else T.toLowerCase r

/-- Go's `unicode.ToLower`. -/
def ToLower (T : UnicodeTables) (r : Char) : Char :=
  if r.toNat ≤ MaxASCII then
    if 0x41 ≤ r.toNat && r.toNat ≤ 0x5A then Char.ofNat (r.toNat + (0x61 - 0x41)) else r
  else toLowerCaseRanges T r

/-- Go's `unicode.IsSpace`: the Latin-1 switch, then the `White_Space` table. -/
def IsSpace (r : Char) : Bool :=
  let n := r.toNat
  if n ≤ MaxLatin1 then
    n == 0x09 || n == 0x0A || n == 0x0B || n == 0x0C || n == 0x0D || n == 0x20 ||
    n == 0x85 || n == 0xA0
  else
    n == 0x1680 || (0x2000 ≤ n && n ≤ 0x200A) || n == 0x2028 || n == 0x2029 ||
    n == 0x202F || n == 0x205F || n == 0x3000

/-! ## Package `strings` -/

/-- The table `asciiSpace` of package `strings`. -/
def asciiSpace (r : Char) : Bool :=
  let n := r.toNat
  n == 0x09 || n == 0x0A || n == 0x0B || n == 0x0C || n == 0x0D || n == 0x20

/-- The counting loop of `strings.Fields`: `n += wasSpace & ^isSpace`. -/
def Fields.count : Bool → List Char → Nat
  | _, [] => 0
  | wasSpace, r :: s =>
    (if wasSpace && !asciiSpace r then 1 else 0) + Fields.count (asciiSpace r) s

/-- The loop of `strings.FieldsFunc`: `pos` is the loop index `end`, `start`
is the start of the open span (`none` when `start < 0`), `spans` the spans
recorded so far. -/
def FieldsFunc.spans (f : Char → Bool) :
    List Char → Nat → Option Nat → List (Nat × Nat) → List (Nat × Nat)
  | [], pos, some start, spans => spans ++ [(start, pos)]
  | [], _, none, spans => spans
  | r :: s, pos, some start, spans =>
    if f r then FieldsFunc.spans f s (pos + 1) none (spans ++ [(start, pos)])
    else FieldsFunc.spans f s (pos + 1) (some start) spans
  | r :: s, pos, none, spans =>
    if f r then FieldsFunc.spans f s (pos + 1) none spans
    else FieldsFunc.spans f s (pos + 1) (some pos) spans

/-- Go's `strings.FieldsFunc`: one substring per recorded span. -/
def FieldsFunc (s : List Char) (f : Char → Bool) : List (List Char) :=
  (FieldsFunc.spans f s 0 none []).map (fun sp => (s.drop sp.1).take (sp.2 - sp.1))

/-- The value `len(strings.Fields(s))`: for an all-ASCII string the result is
`make([]string, n)` with `n` from the counting loop, otherwise it is what
`FieldsFunc(s, unicode.IsSpace)` returns. -/
def lenFields (s : String) : Nat :=
  if s.data.all (fun r => r.toNat < 0x80) then Fields.count true s.data
  else (FieldsFunc s.data IsSpace).length

/-! ## `float64` and `%.2f` -/

/-- The values of Go's `float64` that the program can produce: a finite
non-negative value `mant * 2^exp`, `+Inf` and `NaN`. -/
inductive Float64 where
  | finite (mant : Nat) (exp : Int)
  | inf
  | nan
  deriving DecidableEq, Repr

/-- The integer nearest to `num / den`, ties to the even one. -/
def roundHalfEven (num den : Nat) : Nat :=
  let q := num / den
  let r := num % den
  if 2 * r < den then q else if den < 2 * r then q + 1 else if q % 2 = 0 then q else q + 1

/-- Halving until below 2; `fuel` bounds the number of halvings. -/
def ilog2.go : Nat → Nat → Nat
  | 0, _ => 0
  | fuel + 1, n => if n < 2 then 0 else ilog2.go fuel (n / 2) + 1

/-- Position of the highest set bit of `n`, 0 for `n ≤ 1`. -/
def ilog2 (n : Nat) : Nat := ilog2.go n n

/-- The binary exponent `e` for which `num / den * 2^(-e)` lies in
`[2^52, 2^53)`, for `num, den > 0`. -/
def binade (num den : Nat) : Int :=
  if den * 2 ^ ilog2 num ≤ num * 2 ^ ilog2 den then
    (ilog2 num : Int) - (ilog2 den : Int) - 52
  else (ilog2 num : Int) - (ilog2 den : Int) - 53

/-- The `float64` nearest to `num / den` (IEEE 754 round to nearest, ties to
even; 53-bit significand), for `den > 0`.  The exponent is not clamped: for
operands below `2^63` it stays far inside the range of `float64`. -/
def Float64.ofQuot (num den : Nat) : Float64 :=
  if num = 0 then Float64.finite 0 0
  else
    let e := binade num den
    if 0 ≤ e then Float64.finite (roundHalfEven num (den * 2 ^ e.toNat)) e
    else Float64.finite (roundHalfEven (num * 2 ^ (-e).toNat) den) e

/-- The conversion `float64(n)` of a non-negative `int`. -/
def Float64.ofInt (n : Nat) : Float64 := Float64.ofQuot n 1

/-- The division `x / y` of `float64`, correctly rounded. -/
def Float64.div : Float64 → Float64 → Float64
  | Float64.finite m e, Float64.finite m2 e2 =>
    if m2 = 0 then (if m = 0 then Float64.nan else Float64.inf)
    else if m = 0 then Float64.finite 0 0
    else if e2 ≤ e then Float64.ofQuot (m * 2 ^ (e - e2).toNat) m2
    else Float64.ofQuot m (m2 * 2 ^ (e2 - e).toNat)
  | Float64.finite _ _, Float64.inf => Float64.finite 0 0
  | Float64.inf, Float64.finite _ _ => Float64.inf
  | _, _ => Float64.nan

/-- The exact value of a finite `float64`. -/
def Float64.toRat : Float64 → ℚ
  | Float64.finite m e => (m : ℚ) * (2 : ℚ) ^ e
  | _ => 0

/-- The number of hundredths that `%.2f` prints for a finite value: the exact
value times 100, rounded to the nearest integer, ties to even (package
`strconv` rounds the exact decimal expansion). -/
def hundredths (mant : Nat) (exp : Int) : Nat :=
  if 0 ≤ exp then 100 * mant * 2 ^ exp.toNat else roundHalfEven (100 * mant) (2 ^ (-exp).toNat)

/-- Two decimal digits. -/
def twoDigits (n : Nat) : String :=
  String.mk [Nat.digitChar (n / 10 % 10), Nat.digitChar (n % 10)]

/-- The text `fmt.Sprintf("%.2f", x)`. -/
def formatF2 : Float64 → String
  | Float64.finite m e => toString (hundredths m e / 100) ++ "." ++ twoDigits (hundredths m e % 100)
  | Float64.inf => "+Inf"
  | Float64.nan => "NaN"

/-! ## Output -/

/-- One constructor per `fmt.Printf` of the accumulators, with its argument. -/
inductive Output where
  /-- `"The line count is: %d\n"`. -/
  | lineCount (lineCount : Nat)
  /-- `"The word count is: %d\n"`. -/
  | wordCount (wordCount : Nat)
  /-- `"The average number of letters per word is: %.2f\n"`. -/
  | averageLettersPerWord (alpw : Float64)
  /-- `"Most common letter is: %c\n"`. -/
  | mostCommonLetter (maxKey : Char)
  /-- `"Could not calculate the most common letter\n"`. -/
  | couldNotCalculate
  deriving DecidableEq, Repr

/-- The text written to standard output. -/
def Output.text : Output → String
  | Output.lineCount n => "The line count is: " ++ toString n ++ "\n"
  | Output.wordCount n => "The word count is: " ++ toString n ++ "\n"
  | Output.averageLettersPerWord x =>
    "The average number of letters per word is: " ++ formatF2 x ++ "\n"
  | Output.mostCommonLetter c => "Most common letter is: " ++ String.singleton c ++ "\n"
  | Output.couldNotCalculate => "Could not calculate the most common letter\n"

/-! ## The accumulators -/

/-- The loop of `LineCount`: the list holds what is still to be received. -/
def LineCount.loop (lineCount : Nat) : List String → Output
  | [] => Output.lineCount lineCount
  | _ :: c => LineCount.loop (lineCount + 1) c

/-- `LineCount` run on a channel that delivers `c` and is then closed. -/
def LineCount (c : List String) : Output := LineCount.loop 0 c

/-- The loop of `WordCount`. -/
def WordCount.loop (wordCount : Nat) : List String → Output
  | [] => Output.wordCount wordCount
  | line :: c => WordCount.loop (wordCount + lenFields line) c

/-- `WordCount` run on a channel that delivers `c` and is then closed. -/
def WordCount (c : List String) : Output := WordCount.loop 0 c

/-- The inner loop of `AverageLettersPerWord` over the characters of a line. -/
def AverageLettersPerWord.letters (T : UnicodeTables) (numLetters : Nat) : List Char → Nat
  | [] => numLetters
  | char :: rest =>
    if IsLetter T char then AverageLettersPerWord.letters T (numLetters + 1) rest
    else AverageLettersPerWord.letters T numLetters rest

/-- The counters of `AverageLettersPerWord` at the moment the channel is closed. -/
def AverageLettersPerWord.counters (T : UnicodeTables) (numLetters numWords : Nat) :
    List String → Nat × Nat
  | [] => (numLetters, numWords)
  | line :: c =>
    AverageLettersPerWord.counters T (AverageLettersPerWord.letters T numLetters line.data)
      (numWords + lenFields line) c

/-- The `else` branch of `AverageLettersPerWord`: the guarded division. -/
def AverageLettersPerWord.alpw (numLetters numWords : Nat) : Float64 :=
  if numWords > 0 then Float64.div (Float64.ofInt numLetters) (Float64.ofInt numWords)
  else Float64.finite 0 0

/-- `AverageLettersPerWord` run on a channel that delivers `c` and is then closed. -/
def AverageLettersPerWord (T : UnicodeTables) (c : List String) : Output :=
  let n := AverageLettersPerWord.counters T 0 0 c
  Output.averageLettersPerWord (AverageLettersPerWord.alpw n.1 n.2)

/-- A Go `map[rune]int` whose values only count up from zero: its entries,
keys unique.  The order of the list is internal to the embedding; the order
in which `range` visits the entries is a separate parameter. -/
abbrev LetterFrequencyMap := List (Char × Nat)

/-- The statement `letterFrequencyMap[key]++`. -/
def LetterFrequencyMap.incr : LetterFrequencyMap → Char → LetterFrequencyMap
  | [], key => [(key, 0 + 1)]
  | (k, v) :: m, key =>
    if k = key then (k, v + 1) :: m else (k, v) :: LetterFrequencyMap.incr m key

/-- The inner loop of `MostCommonLetter` over the characters of a line. -/
def MostCommonLetter.line (T : UnicodeTables) (m : LetterFrequencyMap) :
    List Char → LetterFrequencyMap
  | [] => m
  | char :: rest =>
    if IsLetter T char then MostCommonLetter.line T (m.incr (ToLower T char)) rest
    else MostCommonLetter.line T m rest

/-- The map of `MostCommonLetter` at the moment the channel is closed. -/
def MostCommonLetter.letterFrequencyMap (T : UnicodeTables) (m : LetterFrequencyMap) :
    List String → LetterFrequencyMap
  | [] => m
  | line :: c => MostCommonLetter.letterFrequencyMap T (MostCommonLetter.line T m line.data) c

/-- The final scan `for key, val := range letterFrequencyMap` over the
entries in the order `range` visits them. -/
def MostCommonLetter.scan (maxKey : Char) (maxVal : Int) : List (Char × Nat) → Char × Int
  | [] => (maxKey, maxVal)
  | (key, val) :: rest =>
    if (val : Int) > maxVal then MostCommonLetter.scan key val rest
    else MostCommonLetter.scan maxKey maxVal rest

/-- The `else` branch of `MostCommonLetter`, given the visiting order. -/
def MostCommonLetter.report (visited : List (Char × Nat)) : Output :=
  let r := MostCommonLetter.scan 'a' (-1) visited
  if r.2 ≠ -1 then Output.mostCommonLetter r.1 else Output.couldNotCalculate

/-- `MostCommonLetter` run on a channel that delivers `c` and is then closed.
`range` tells in which order the `range` statement visits the entries of a
map; Go leaves that order unspecified, so every `range` that permutes the
entries is a possible execution. -/
def MostCommonLetter (T : UnicodeTables) (range : LetterFrequencyMap → List (Char × Nat))
    (c : List String) : Output :=
  MostCommonLetter.report (range (MostCommonLetter.letterFrequencyMap T [] c))

/-- What Go guarantees of `range` over a map: every entry is visited once. -/
def RangeOrder (range : LetterFrequencyMap → List (Char × Nat)) : Prop :=
  ∀ m, (range m).Perm m

/-! ## Channels and the driver -/

/-- The type `StatChan`: a channel, identified by a number (every `make`
yields a channel different from all others). -/
abbrev StatChan := Nat

/-- The type `StatFunc`, seen from its channel: what the function prints once
the channel has delivered the given values and has been closed. -/
abbrev StatFunc := List String → Output

/-- The type `Stat`. -/
structure Stat where
  f : StatFunc
  c : StatChan

/-- A channel operation of the driver. -/
inductive ChanOp where
  /-- `c <- &line`, with the string that `line` holds. -/
  | send (c : StatChan) (line : String)
  /-- `close(c)`. -/
  | close (c : StatChan)
  deriving DecidableEq, Repr

/-- The inner loop of `processFile`: `for _, stat := range stats { stat.c <- &line }`. -/
def processFile.sendAll (line : String) : List Stat → List ChanOp
  | [] => []
  | stat :: stats => ChanOp.send stat.c line :: processFile.sendAll line stats

/-- The channel operations of `processFile`, in the order performed;
`scanner` holds the lines that the successive calls of `scanner.Scan()` yield. -/
def processFile : List String → List Stat → List ChanOp
  | [], _ => []
  | line :: scanner, stats => processFile.sendAll line stats ++ processFile scanner stats

/-- The channel operations of `stopStats`, in the order performed. -/
def stopStats : List Stat → List ChanOp
  | [] => []
  | stat :: stats => ChanOp.close stat.c :: stopStats stats

/-- The values sent on channel `c` by the operations `ops`, in order. -/
def sent (c : StatChan) : List ChanOp → List String
  | [] => []
  | ChanOp.send c2 line :: ops => if c2 = c then line :: sent c ops else sent c ops
  | ChanOp.close _ :: ops => sent c ops

/-- What a receiver on channel `c` gets before `more` is false: the values
sent on `c` up to the first `close(c)`. -/
def received (c : StatChan) : List ChanOp → List String
  | [] => []
  | ChanOp.send c2 line :: ops => if c2 = c then line :: received c ops else received c ops
  | ChanOp.close c2 :: ops => if c2 = c then [] else received c ops

/-- The body of `main` after argument parsing, for the given `stats` and the
lines `scanner` of the file: `startStats` runs every `stat.f` on `stat.c`,
`processFile` and `stopStats` operate the channels; the result lists what
each stat prints, in registration order (the order of the lines on standard
output is up to the scheduler). -/
def runStats (stats : List Stat) (scanner : List String) : List Output :=
  stats.map fun stat => stat.f (received stat.c (processFile scanner stats ++ stopStats stats))

/-- The list `stats` of `main`; the four channels are four different `make`s. -/
def mainStats (T : UnicodeTables) (range : LetterFrequencyMap → List (Char × Nat)) : List Stat :=
  [⟨LineCount, 0⟩, ⟨WordCount, 1⟩, ⟨MostCommonLetter T range, 2⟩, ⟨AverageLettersPerWord T, 3⟩]

/-! ## The goroutines of `main`

`main` and the goroutines that `startStats` launches, as a transition system.
Every stat of `main` has its own channel, so a channel is identified with the
position of its stat.  The channels are unbuffered: a send is one joint step
of `main` and the receiving goroutine, and is blocked unless that goroutine
stands at its receive.  What a goroutine does between two receives touches
only its own variables; it is merged into the receive, and the value that
`Printf` is given is the goroutine's function applied to what it received. -/

/-- Where the goroutine running `stat.f(stat.c, waitGroup)` stands. -/
inductive Status where
  /-- The `go` statement has not run yet. -/
  | notStarted
  /-- In the loop, at `line, more := <-c`. -/
  | receiving
  /-- The receive returned `more == false` and `Printf` has run. -/
  | printed
  /-- `waitGroup.Done()` has run and the function has returned. -/
  | returned
  deriving DecidableEq, Repr

/-- One goroutine: where it stands, the values it has received, what it has
written to standard output, and how often it has called `waitGroup.Done()`. -/
structure Goroutine where
  status : Status
  got : List String
  out : List Output
  dones : Nat

/-- Where `main` stands. -/
inductive MainPc where
  /-- Before `waitGroup.Add(len(stats))` in `startStats`. -/
  | startStats
  /-- In the loop of `startStats`, before `go stat.f(stat.c, waitGroup)` for stat `k`. -/
  | spawn (k : Nat)
  /-- In `processFile`: the scanner still yields `scanner`, whose head is the
  current line, and stat `k` is the next to be sent that line. -/
  | send (scanner : List String) (k : Nat)
  /-- In the loop of `stopStats`, before `close(stat.c)` for stat `k`. -/
  | close (k : Nat)
  /-- At `waitGroup.Wait()`. -/
  | wait
  /-- `main` has returned. -/
  | exited
  deriving DecidableEq, Repr

/-- The state of the program. -/
structure State where
  pc : MainPc
  /-- The counter of the `WaitGroup`. -/
  counter : Int
  /-- Whether the channel of stat `k` has been closed. -/
  closed : Nat → Bool
  goroutine : Nat → Goroutine

/-- The state at the start of `main`. -/
def State.init : State :=
  ⟨MainPc.startStats, 0, fun _ => false, fun _ => ⟨Status.notStarted, [], [], 0⟩⟩

/-- Who takes the next step. -/
inductive Action where
  | main
  | goroutine (k : Nat)
  deriving DecidableEq, Repr

/-- The next step of `main`; `none` when `main` is blocked or has returned. -/
def stepMain (stats : List Stat) (L : List String) (s : State) : Option State :=
  match s.pc with
  | MainPc.startStats =>
    some { s with counter := s.counter + stats.length, pc := MainPc.spawn 0 }
  | MainPc.spawn k =>
    if k < stats.length then
      some { s with
        goroutine := Function.update s.goroutine k
          { s.goroutine k with status := Status.receiving },
        pc := MainPc.spawn (k + 1) }
    else some { s with pc := MainPc.send L 0 }
  | MainPc.send [] _ => some { s with pc := MainPc.close 0 }
  | MainPc.send (line :: scanner) k =>
    if k < stats.length then
      if (s.goroutine k).status = Status.receiving ∧ s.closed k = false then
        some { s with
          goroutine := Function.update s.goroutine k
            { s.goroutine k with got := (s.goroutine k).got ++ [line] },
          pc := MainPc.send (line :: scanner) (k + 1) }
      else none
    else some { s with pc := MainPc.send scanner 0 }
  | MainPc.close k =>
    if k < stats.length then
      some { s with closed := Function.update s.closed k true, pc := MainPc.close (k + 1) }
    else some { s with pc := MainPc.wait }
  | MainPc.wait => if s.counter = 0 then some { s with pc := MainPc.exited } else none
  | MainPc.exited => none

/-- The next step of the goroutine of stat `k`; `none` when it is blocked at
its receive, not started, or has returned. -/
def stepGoroutine (stats : List Stat) (s : State) (k : Nat) : Option State :=
  match stats[k]? with
  | none => none
  | some stat =>
    match (s.goroutine k).status with
    | Status.notStarted => none
    | Status.receiving =>
      if s.closed k = true then
        some { s with
          goroutine := Function.update s.goroutine k
            { s.goroutine k with
              out := (s.goroutine k).out ++ [stat.f (s.goroutine k).got],
              status := Status.printed } }
      else none
    | Status.printed =>
      some { s with
        counter := s.counter - 1,
        goroutine := Function.update s.goroutine k
          { s.goroutine k with
            dones := (s.goroutine k).dones + 1, status := Status.returned } }
    | Status.returned => none

/-- One step of the program. -/
def step (stats : List Stat) (L : List String) (s : State) : Action → Option State
  | Action.main => stepMain stats L s
  | Action.goroutine k => stepGoroutine stats s k

/-- The state after the steps of a schedule; `none` if one of them is not enabled. -/
def run (stats : List Stat) (L : List String) : State → List Action → Option State
  | s, [] => some s
  | s, a :: schedule =>
    match step stats L s a with
    | none => none
    | some s2 => run stats L s2 schedule

/-- One execution of `main` on a two-line file: `Add`, four `go`, the two
lines sent to the four stats, the closes interleaved with goroutine 0
finishing, the other goroutines finishing, and `Wait` returning. -/
def exampleSchedule : List Action :=
  [Action.main, Action.main, Action.main, Action.main, Action.main, Action.main,
    Action.main, Action.main, Action.main, Action.main, Action.main,
    Action.main, Action.main, Action.main, Action.main, Action.main,
    Action.main,
    Action.main, Action.goroutine 0, Action.main, Action.main, Action.goroutine 0,
    Action.main, Action.main,
    Action.goroutine 3, Action.goroutine 2, Action.goroutine 1, Action.goroutine 1,
    Action.goroutine 3, Action.goroutine 2, Action.main]

/-- A bound on the steps a goroutine still takes. -/
def Status.stepsLeft : Status → Nat
  | Status.notStarted => 2
  | Status.receiving => 2
  | Status.printed => 1
  | Status.returned => 0

/-- A bound on the steps `main` still takes, for `n` stats and a file of `len` lines. -/
def MainPc.stepsLeft (n len : Nat) : MainPc → Nat
  | MainPc.startStats => len * (n + 1) + 5 * n + 5
  | MainPc.spawn k => 3 * (n - k) + len * (n + 1) + 2 * n + 4
  | MainPc.send scanner k => scanner.length * (n + 1) + (n - k) + n + 3
  | MainPc.close k => (n - k) + 2
  | MainPc.wait => 1
  | MainPc.exited => 0

/-- A bound on the steps the program still takes. -/
def stepsLeft (stats : List Stat) (L : List String) (s : State) : Nat :=
  s.pc.stepsLeft stats.length L.length +
    ((List.range stats.length).map fun k => (s.goroutine k).status.stepsLeft).sum

/-- Number of goroutines among the first `n` that have not returned. -/
def pending (s : State) (n : Nat) : Nat :=
  (List.range n).countP fun k => decide ((s.goroutine k).status ≠ Status.returned)

/-- What holds of the goroutine of stat `k` in every reachable state: it
prints nothing before `more` is false, and then exactly the report of its
own stat on the lines `L`; it calls `Done` once, after printing. -/
def GoroutineInv (stats : List Stat) (L : List String) (s : State) (k : Nat) : Prop :=
  match (s.goroutine k).status with
  | Status.notStarted =>
    (s.goroutine k).got = [] ∧ (s.goroutine k).out = [] ∧ (s.goroutine k).dones = 0
  | Status.receiving => (s.goroutine k).out = [] ∧ (s.goroutine k).dones = 0
  | Status.printed =>
    s.closed k = true ∧ (∃ stat, stats[k]? = some stat ∧ (s.goroutine k).out = [stat.f L]) ∧
      (s.goroutine k).dones = 0
  | Status.returned =>
    s.closed k = true ∧ (∃ stat, stats[k]? = some stat ∧ (s.goroutine k).out = [stat.f L]) ∧
      (s.goroutine k).dones = 1

/-- What holds of the channels and goroutines at each point of `main`. -/
def MainInv (stats : List Stat) (L : List String) (s : State) : Prop :=
  match s.pc with
  | MainPc.startStats =>
    s.counter = 0 ∧
    ∀ k, k < stats.length → (s.goroutine k).status = Status.notStarted ∧ s.closed k = false
  | MainPc.spawn j =>
    j ≤ stats.length ∧ ∀ k, k < stats.length → s.closed k = false ∧
      (k < j → (s.goroutine k).status = Status.receiving ∧ (s.goroutine k).got = []) ∧
      (j ≤ k → (s.goroutine k).status = Status.notStarted)
  | MainPc.send scanner j =>
    j ≤ stats.length ∧ ∃ pre, L = pre ++ scanner ∧ ∀ k, k < stats.length →
      s.closed k = false ∧ (s.goroutine k).status = Status.receiving ∧
      (s.goroutine k).got = pre ++ (if k < j then scanner.take 1 else [])
  | MainPc.close j =>
    j ≤ stats.length ∧ ∀ k, k < stats.length →
      (k < j → s.closed k = true) ∧
      (j ≤ k → s.closed k = false ∧ (s.goroutine k).status = Status.receiving) ∧
      (s.goroutine k).status ≠ Status.notStarted ∧
      ((s.goroutine k).status = Status.receiving → (s.goroutine k).got = L)
  | MainPc.wait =>
    ∀ k, k < stats.length → s.closed k = true ∧
      (s.goroutine k).status ≠ Status.notStarted ∧
      ((s.goroutine k).status = Status.receiving → (s.goroutine k).got = L)
  | MainPc.exited => ∀ k, k < stats.length → (s.goroutine k).status = Status.returned

/-- The invariant of the program. -/
structure Inv (stats : List Stat) (L : List String) (s : State) : Prop where
  goroutines : ∀ k, k < stats.length → GoroutineInv stats L s k
  main : MainInv stats L s
  count : s.pc ≠ MainPc.startStats → s.counter = (pending s stats.length : Nat)

/-! ## Reference definitions, in the words of the specification -/

/-- The tokens of a line: split on whitespace, empty tokens discarded. -/
def tokens (line : String) : List (List Char) :=
  (line.data.splitOnP IsSpace).filter (fun t => !t.isEmpty)

/-- Number of maximal runs of characters that fail `f` in `s`, counted as
run starts; `wasSpace` tells whether a run may start at the head. -/
def runStarts (f : Char → Bool) : Bool → List Char → Nat
  | _, [] => 0
  | wasSpace, r :: s => (if wasSpace && !f r then 1 else 0) + runStarts f (f r) s

/-- The Go expression `letterFrequencyMap[key]`: zero for an absent key. -/
def LetterFrequencyMap.get : LetterFrequencyMap → Char → Nat
  | [], _ => 0
  | (k, v) :: m, key => if k = key then v else LetterFrequencyMap.get m key

/-- Keys unique, every count positive. -/
def LetterFrequencyMap.WF (m : LetterFrequencyMap) : Prop :=
  (m.map Prod.fst).Nodup ∧ ∀ e ∈ m, 0 < e.2

/-- Number of letter characters in the lines `L` whose lowercase form is `c`. -/
def letterCount (T : UnicodeTables) (L : List String) (c : Char) : Nat :=
  (L.map fun line => line.data.countP (fun x => IsLetter T x && ToLower T x == c)).sum

/-- Total number of letter characters in the lines `L`. -/
def totalLetters (T : UnicodeTables) (L : List String) : Nat :=
  (L.map fun line => line.data.countP (IsLetter T)).sum

/-- Total number of tokens in the lines `L`. -/
def totalWords (L : List String) : Nat :=
  (L.map fun line => (tokens line).length).sum

/-- The greatest count among the entries, 0 when there is none. -/
def maxCount (entries : List (Char × Nat)) : Nat :=
  (entries.map Prod.snd).foldr max 0

/-- Tables that list nothing above Latin-1.  The texts of the scenarios stay
within Latin-1, where the tables are not consulted. -/
def noTables : UnicodeTables := ⟨fun _ => false, fun _ => false, fun r => r⟩

/-- A one-line text whose only character is U+00AA, the feminine ordinal
indicator: a letter of category Lo, neither upper nor lower case. -/
def ordinalLines : List String := [String.mk [Char.ofNat 0xAA]]

/-- A text of 3 letters and 40 words, in four lines of ten words. -/
def tieLines : List String :=
  ["a a a 1 1 1 1 1 1 1", "1 1 1 1 1 1 1 1 1 1", "1 1 1 1 1 1 1 1 1 1", "1 1 1 1 1 1 1 1 1 1"]

/-- The integer nearest to `num / den`, halves rounded up. -/
def roundHalfUp (num den : Nat) : Nat := (2 * num + den) / (2 * den)

/-- The two-line text of the end-to-end scenario of the specification. -/
def foxLines : List String := ["the quick brown fox", "jumps over the lazy dog"]

/-! ## Theorems -/

theorem LineCount_loop_eq (c : List String) (n : Nat) :
    LineCount.loop n c = Output.lineCount (n + c.length) := by
  induction c generalizing n with
  | nil => simp [LineCount.loop]
  | cons line c ih => simp [LineCount.loop, ih]; omega

/-- C1: run on a channel that delivers the lines `L` and is then closed,
`LineCount` prints exactly `len(L)`, in particular 0 for the empty sequence,
whatever the lines contain. -/
theorem LineCount_eq_length :
    (∀ L : List String, LineCount L = Output.lineCount L.length) ∧
    LineCount [] = Output.lineCount 0 := by
  refine ⟨fun L => ?_, rfl⟩
  simp [LineCount, LineCount_loop_eq]

/-! ### `strings.Fields` counts the tokens -/

theorem count_filter_splitOnP (f : Char → Bool) (s : List Char) :
    ((s.splitOnP f).filter (fun t => !t.isEmpty)).length = runStarts f true s ∧
    (((s.splitOnP f).tail).filter (fun t => !t.isEmpty)).length = runStarts f false s := by
  induction s with
  | nil => simp [runStarts]
  | cons a s ih =>
    obtain ⟨ih1, ih2⟩ := ih
    rw [List.splitOnP_cons]
    by_cases h : f a = true
    · simp [h, runStarts, ih1]
    · have hne : s.splitOnP f ≠ [] := List.splitOnP_ne_nil f s
      obtain ⟨hd, tl, htl⟩ := List.exists_cons_of_ne_nil hne
      rw [htl] at ih2
      simp only [List.tail_cons] at ih2
      simp [h, runStarts, htl, List.modifyHead, ih2]
      omega

theorem spans_length (f : Char → Bool) (s : List Char) :
    ∀ (pos : Nat) (start : Option Nat) (spans : List (Nat × Nat)),
      (FieldsFunc.spans f s pos start spans).length =
        spans.length + (if start.isSome then 1 else 0) + runStarts f start.isNone s := by
  induction s with
  | nil => intro pos start spans; cases start <;> simp [FieldsFunc.spans, runStarts]
  | cons r s ih =>
    intro pos start spans
    cases start <;> by_cases h : f r = true <;>
      (simp [FieldsFunc.spans, runStarts, h, ih]; try omega)

theorem runStarts_congr (f g : Char → Bool) (s : List Char) (h : ∀ r ∈ s, f r = g r) :
    ∀ b, runStarts f b s = runStarts g b s := by
  induction s with
  | nil => intro b; rfl
  | cons r s ih =>
    intro b
    have hr : f r = g r := h r (List.mem_cons_self _ _)
    simp only [runStarts, hr]
    rw [ih (fun x hx => h x (List.mem_cons_of_mem _ hx))]

theorem Fields.count_eq (b : Bool) (s : List Char) :
    Fields.count b s = runStarts asciiSpace b s := by
  induction s generalizing b with
  | nil => rfl
  | cons r s ih => simp [Fields.count, runStarts, ih]

theorem asciiSpace_eq_IsSpace (r : Char) (h : r.toNat < 0x80) : asciiSpace r = IsSpace r := by
  have h1 : r.toNat ≤ MaxLatin1 := by unfold MaxLatin1; omega
  have h2 : (r.toNat == 0x85) = false := by simp; omega
  have h3 : (r.toNat == 0xA0) = false := by simp; omega
  simp [asciiSpace, IsSpace, h1, h2, h3]

theorem lenFields_eq_tokens (line : String) : lenFields line = (tokens line).length := by
  unfold lenFields tokens
  rw [(count_filter_splitOnP IsSpace line.data).1]
  split
  · rename_i h
    rw [Fields.count_eq]
    apply runStarts_congr
    intro r hr
    exact asciiSpace_eq_IsSpace r (by simpa using List.all_eq_true.mp h r hr)
  · simp [FieldsFunc, spans_length]

theorem WordCount_loop_eq (c : List String) (n : Nat) :
    WordCount.loop n c = Output.wordCount (n + (c.map fun line => (tokens line).length).sum) := by
  induction c generalizing n with
  | nil => simp [WordCount.loop]
  | cons line c ih =>
    simp [WordCount.loop, ih, lenFields_eq_tokens]; omega

/-- C2, the example as the specification words it: on the two-line fox text
`WordCount` does not print 8 (the text has 4 + 5 = 9 words). -/
theorem WordCount_fox_ne_8 : WordCount foxLines ≠ Output.wordCount 8 := by
  decide

/-- C2: run on a channel that delivers the lines `L` and is then closed,
`WordCount` prints the sum over the lines of the number of tokens of the
line, the tokens being what splitting on Unicode whitespace and discarding
the empty pieces leaves; the two-line fox text gives 9 and the empty sequence
gives 0. -/
theorem WordCount_eq_sum_tokens :
    (∀ L : List String,
      WordCount L = Output.wordCount (L.map fun line => (tokens line).length).sum) ∧
    WordCount foxLines = Output.wordCount 9 ∧
    WordCount [] = Output.wordCount 0 := by
  refine ⟨fun L => ?_, by decide, rfl⟩
  simp [WordCount, WordCount_loop_eq]

/-! ### The letter-frequency map -/

theorem LetterFrequencyMap.get_incr (m : LetterFrequencyMap) (key c : Char) :
    (m.incr key).get c = if key = c then m.get c + 1 else m.get c := by
  induction m with
  | nil => by_cases h : key = c <;> simp [LetterFrequencyMap.incr, LetterFrequencyMap.get, h]
  | cons e m ih =>
    obtain ⟨k, v⟩ := e
    by_cases hk : k = key
    · subst hk
      by_cases hc : k = c <;> simp [LetterFrequencyMap.incr, LetterFrequencyMap.get, hc]
    · by_cases hc : k = c
      · subst hc
        have : ¬ key = k := fun h => hk h.symm
        simp [LetterFrequencyMap.incr, LetterFrequencyMap.get, hk, this]
      · simp [LetterFrequencyMap.incr, LetterFrequencyMap.get, hk, hc, ih]

theorem LetterFrequencyMap.mem_incr (m : LetterFrequencyMap) (key : Char) (e : Char × Nat)
    (he : e ∈ m.incr key) : (e.1 = key ∧ 0 < e.2) ∨ e ∈ m := by
  induction m with
  | nil =>
    simp [LetterFrequencyMap.incr] at he
    left; simp [he]
  | cons x m ih =>
    obtain ⟨k, v⟩ := x
    by_cases hk : k = key
    · simp [LetterFrequencyMap.incr, hk] at he
      rcases he with he | he
      · left; simp [he]
      · right; simp [he]
    · simp [LetterFrequencyMap.incr, hk] at he
      rcases he with he | he
      · right; simp [he]
      · rcases ih he with h | h
        · left; exact h
        · right; simp [h]

theorem LetterFrequencyMap.keys_incr (m : LetterFrequencyMap) (key c : Char)
    (hc : c ∈ (m.incr key).map Prod.fst) : c = key ∨ c ∈ m.map Prod.fst := by
  induction m with
  | nil => simp [LetterFrequencyMap.incr] at hc; left; exact hc
  | cons x m ih =>
    obtain ⟨k, v⟩ := x
    by_cases hk : k = key
    · simp [LetterFrequencyMap.incr, hk] at hc ⊢
      rcases hc with hc | ⟨w, hw⟩
      · left; exact hc
      · right; exact ⟨w, hw⟩
    · simp only [LetterFrequencyMap.incr, hk, if_false, List.map_cons, List.mem_cons] at hc ⊢
      rcases hc with hc | hc
      · right; left; exact hc
      · rcases ih hc with h | h
        · left; exact h
        · right; right; exact h

theorem LetterFrequencyMap.wf_incr (m : LetterFrequencyMap) (key : Char) (h : m.WF) :
    (m.incr key).WF := by
  refine ⟨?_, ?_⟩
  · have hn := h.1
    clear h
    induction m with
    | nil => simp [LetterFrequencyMap.incr]
    | cons x m ih =>
      obtain ⟨k, v⟩ := x
      simp only [List.map_cons, List.nodup_cons] at hn
      by_cases hk : k = key
      · simp only [LetterFrequencyMap.incr, hk, if_true, List.map_cons, List.nodup_cons]
        rw [← hk]; exact hn
      · simp only [LetterFrequencyMap.incr, hk, if_false, List.map_cons, List.nodup_cons]
        refine ⟨fun hmem => ?_, ih hn.2⟩
        rcases LetterFrequencyMap.keys_incr m key k hmem with h1 | h1
        · exact hk h1
        · exact hn.1 h1
  · intro e he
    rcases LetterFrequencyMap.mem_incr m key e he with h1 | h1
    · exact h1.2
    · exact h.2 e h1

theorem LetterFrequencyMap.mem_iff_get (m : LetterFrequencyMap) (h : m.WF) (k : Char) (v : Nat) :
    (k, v) ∈ m ↔ 0 < v ∧ m.get k = v := by
  induction m with
  | nil => simp [LetterFrequencyMap.get]; omega
  | cons x m ih =>
    obtain ⟨k0, v0⟩ := x
    have hn := h.1
    simp only [List.map_cons, List.nodup_cons] at hn
    have hm : LetterFrequencyMap.WF m := ⟨hn.2, fun e he => h.2 e (List.mem_cons_of_mem _ he)⟩
    have hv0 : 0 < v0 := h.2 (k0, v0) (List.mem_cons_self _ _)
    by_cases hk : k0 = k
    · subst hk
      simp only [LetterFrequencyMap.get, if_true, List.mem_cons, Prod.mk.injEq, true_and]
      constructor
      · rintro (h1 | h1)
        · subst h1; exact ⟨hv0, rfl⟩
        · exact absurd (List.mem_map_of_mem Prod.fst h1) hn.1
      · rintro ⟨_, h1⟩; left; exact h1.symm
    · have hk2 : ¬ k = k0 := fun h => hk h.symm
      simp only [LetterFrequencyMap.get, hk, if_false, List.mem_cons, Prod.mk.injEq, hk2,
        false_and, false_or]
      exact ih hm

theorem MostCommonLetter.line_wf (T : UnicodeTables) (s : List Char) :
    ∀ m : LetterFrequencyMap, m.WF → (MostCommonLetter.line T m s).WF := by
  induction s with
  | nil => intro m h; exact h
  | cons x s ih =>
    intro m h
    by_cases hx : IsLetter T x = true
    · simp only [MostCommonLetter.line, hx, if_true]
      exact ih _ (LetterFrequencyMap.wf_incr m _ h)
    · simp only [MostCommonLetter.line, hx]
      exact ih _ h

theorem MostCommonLetter.line_get (T : UnicodeTables) (s : List Char) (c : Char) :
    ∀ m : LetterFrequencyMap, (MostCommonLetter.line T m s).get c =
      m.get c + s.countP (fun x => IsLetter T x && ToLower T x == c) := by
  induction s with
  | nil => intro m; simp [MostCommonLetter.line]
  | cons x s ih =>
    intro m
    by_cases hx : IsLetter T x = true
    · by_cases hc : ToLower T x = c
      · simp [MostCommonLetter.line, hx, ih, LetterFrequencyMap.get_incr, hc, List.countP_cons]
        omega
      · simp [MostCommonLetter.line, hx, ih, LetterFrequencyMap.get_incr, hc, List.countP_cons]
    · simp [MostCommonLetter.line, hx, ih, List.countP_cons]

theorem MostCommonLetter.letterFrequencyMap_wf (T : UnicodeTables) (L : List String) :
    ∀ m : LetterFrequencyMap, m.WF → (MostCommonLetter.letterFrequencyMap T m L).WF := by
  induction L with
  | nil => intro m h; exact h
  | cons line L ih =>
    intro m h
    exact ih _ (MostCommonLetter.line_wf T line.data m h)

theorem MostCommonLetter.letterFrequencyMap_get (T : UnicodeTables) (L : List String) (c : Char) :
    ∀ m : LetterFrequencyMap, (MostCommonLetter.letterFrequencyMap T m L).get c =
      m.get c + letterCount T L c := by
  induction L with
  | nil => intro m; simp [MostCommonLetter.letterFrequencyMap, letterCount]
  | cons line L ih =>
    intro m
    simp only [MostCommonLetter.letterFrequencyMap, ih, MostCommonLetter.line_get, letterCount,
      List.map_cons, List.sum_cons]
    omega

theorem LetterFrequencyMap.wf_nil : LetterFrequencyMap.WF [] := by
  simp [LetterFrequencyMap.WF]

/-- Entries of the final map: the pairs of a key with its positive letter count. -/
theorem MostCommonLetter.mem_letterFrequencyMap (T : UnicodeTables) (L : List String)
    (k : Char) (v : Nat) :
    (k, v) ∈ MostCommonLetter.letterFrequencyMap T [] L ↔ 0 < v ∧ letterCount T L k = v := by
  rw [LetterFrequencyMap.mem_iff_get _
    (MostCommonLetter.letterFrequencyMap_wf T L [] LetterFrequencyMap.wf_nil),
    MostCommonLetter.letterFrequencyMap_get]
  simp [LetterFrequencyMap.get]

/-! ### The final scan of `MostCommonLetter` -/

theorem MostCommonLetter.scan_cases (l : List (Char × Nat)) :
    ∀ (k0 : Char) (v0 : Int),
      (MostCommonLetter.scan k0 v0 l = (k0, v0) ∧ ∀ x ∈ l, (x.2 : Int) ≤ v0) ∨
      (∃ pre e post, l = pre ++ e :: post ∧
        MostCommonLetter.scan k0 v0 l = (e.1, (e.2 : Int)) ∧ v0 < (e.2 : Int) ∧
        (∀ x ∈ pre, x.2 < e.2) ∧ (∀ x ∈ post, x.2 ≤ e.2)) := by
  induction l with
  | nil => intro k0 v0; left; simp [MostCommonLetter.scan]
  | cons y l ih =>
    intro k0 v0
    obtain ⟨k, v⟩ := y
    by_cases hv : (v : Int) > v0
    · simp only [MostCommonLetter.scan, hv, if_true]
      right
      rcases ih k (v : Int) with ⟨h1, h2⟩ | ⟨pre, e, post, h1, h2, h3, h4, h5⟩
      · refine ⟨[], (k, v), l, rfl, h1, hv, by simp, ?_⟩
        intro x hx
        exact_mod_cast h2 x hx
      · refine ⟨(k, v) :: pre, e, post, by simp [h1], h2, by omega, ?_, h5⟩
        intro x hx
        rcases List.mem_cons.mp hx with hx | hx
        · subst hx; exact_mod_cast h3
        · exact h4 x hx
    · simp only [MostCommonLetter.scan, hv, if_false]
      rcases ih k0 v0 with ⟨h1, h2⟩ | ⟨pre, e, post, h1, h2, h3, h4, h5⟩
      · left
        refine ⟨h1, ?_⟩
        intro x hx
        rcases List.mem_cons.mp hx with hx | hx
        · subst hx; simpa using hv
        · exact h2 x hx
      · right
        refine ⟨(k, v) :: pre, e, post, by simp [h1], h2, h3, ?_, h5⟩
        intro x hx
        rcases List.mem_cons.mp hx with hx | hx
        · subst hx
          have : (v : Int) < (e.2 : Int) := by simp at hv; omega
          exact_mod_cast this
        · exact h4 x hx

theorem maxCount_le (l : List (Char × Nat)) (b : Nat) (h : ∀ x ∈ l, x.2 ≤ b) :
    maxCount l ≤ b := by
  induction l with
  | nil => simp [maxCount]
  | cons y l ih =>
    have h1 := h y (List.mem_cons_self _ _)
    have h2 := ih (fun x hx => h x (List.mem_cons_of_mem _ hx))
    simp only [maxCount, List.map_cons, List.foldr_cons] at h2 ⊢
    exact max_le h1 h2

theorem le_maxCount (l : List (Char × Nat)) (x : Char × Nat) (hx : x ∈ l) :
    x.2 ≤ maxCount l := by
  induction l with
  | nil => simp at hx
  | cons y l ih =>
    simp only [maxCount, List.map_cons, List.foldr_cons]
    rcases List.mem_cons.mp hx with h | h
    · subst h; exact le_max_left _ _
    · exact le_trans (ih h) (le_max_right _ _)

theorem find?_first_max (pre post : List (Char × Nat)) (e : Char × Nat)
    (h4 : ∀ x ∈ pre, x.2 < e.2) (h5 : ∀ x ∈ post, x.2 ≤ e.2) :
    maxCount (pre ++ e :: post) = e.2 ∧
    (pre ++ e :: post).find? (fun x => x.2 == maxCount (pre ++ e :: post)) = some e := by
  have hmax : maxCount (pre ++ e :: post) = e.2 := by
    apply le_antisymm
    · apply maxCount_le
      intro x hx
      rcases List.mem_append.mp hx with hx | hx
      · exact le_of_lt (h4 x hx)
      · rcases List.mem_cons.mp hx with hx | hx
        · subst hx; exact le_refl _
        · exact h5 x hx
    · exact le_maxCount _ e (by simp)
  refine ⟨hmax, ?_⟩
  rw [hmax]
  clear hmax h5
  induction pre with
  | nil => simp
  | cons y pre ih =>
    have hy : y.2 < e.2 := h4 y (List.mem_cons_self _ _)
    have hne : (y.2 == e.2) = false := by simp; omega
    simp only [List.cons_append, List.find?_cons, hne]
    exact ih (fun x hx => h4 x (List.mem_cons_of_mem _ hx))

/-- C10: over the entries in the order `range` visits them, the final scan
of `MostCommonLetter` (replace the best only on a strictly greater count,
starting from `'a'` and the sentinel -1) returns the first entry whose count
equals the greatest count; that entry's key is the letter reported, so among
tied letters the first visited one wins; and the sentinel -1 survives exactly
when there is no entry. -/
theorem MostCommonLetter_scan_first_max (visited : List (Char × Nat)) :
    (MostCommonLetter.scan 'a' (-1) visited =
      match visited.find? (fun e => e.2 == maxCount visited) with
      | some e => (e.1, (e.2 : Int))
      | none => ('a', -1)) ∧
    (MostCommonLetter.report visited =
      match visited.find? (fun e => e.2 == maxCount visited) with
      | some e => Output.mostCommonLetter e.1
      | none => Output.couldNotCalculate) ∧
    (visited.find? (fun e => e.2 == maxCount visited) = none ↔ visited = []) ∧
    ((MostCommonLetter.scan 'a' (-1) visited).2 = -1 ↔ visited = []) := by
  rcases MostCommonLetter.scan_cases visited 'a' (-1) with
    ⟨h1, h2⟩ | ⟨pre, e, post, h1, h2, h3, h4, h5⟩
  · have hnil : visited = [] := by
      cases visited with
      | nil => rfl
      | cons y l =>
        have := h2 y (List.mem_cons_self _ _)
        omega
    subst hnil
    simp [MostCommonLetter.scan, MostCommonLetter.report]
  · obtain ⟨_, hf⟩ := find?_first_max pre post e h4 h5
    have hne : visited ≠ [] := by rw [h1]; simp
    have hv : ¬ ((e.2 : Int) = -1) := by omega
    rw [← h1] at hf
    simp only [MostCommonLetter.report, h2, hf, hne, iff_false, hv]
    simp

theorem MostCommonLetter.report_cases (visited : List (Char × Nat)) :
    (visited = [] ∧ MostCommonLetter.report visited = Output.couldNotCalculate) ∨
    (∃ e ∈ visited, MostCommonLetter.report visited = Output.mostCommonLetter e.1 ∧
      ∀ x ∈ visited, x.2 ≤ e.2) := by
  rcases MostCommonLetter.scan_cases visited 'a' (-1) with
    ⟨h1, h2⟩ | ⟨pre, e, post, h1, h2, h3, h4, h5⟩
  · left
    have hnil : visited = [] := by
      cases visited with
      | nil => rfl
      | cons y l =>
        have := h2 y (List.mem_cons_self _ _)
        omega
    subst hnil
    simp [MostCommonLetter.scan, MostCommonLetter.report]
  · right
    have hv : ¬ ((e.2 : Int) = -1) := by omega
    refine ⟨e, by simp [h1], by simp [MostCommonLetter.report, h2, hv], ?_⟩
    intro x hx
    rw [h1] at hx
    rcases List.mem_append.mp hx with hx | hx
    · exact le_of_lt (h4 x hx)
    · rcases List.mem_cons.mp hx with hx | hx
      · subst hx; exact le_refl _
      · exact h5 x hx

theorem letterCount_pos_iff (T : UnicodeTables) (L : List String) (c : Char) :
    0 < letterCount T L c ↔
      ∃ line ∈ L, ∃ x ∈ line.data, IsLetter T x = true ∧ ToLower T x = c := by
  induction L with
  | nil => simp [letterCount]
  | cons line L ih =>
    have hsplit : letterCount T (line :: L) c =
        line.data.countP (fun x => IsLetter T x && ToLower T x == c) + letterCount T L c := by
      simp [letterCount]
    rw [hsplit]
    constructor
    · intro h
      by_cases h0 : 0 < line.data.countP (fun x => IsLetter T x && ToLower T x == c)
      · obtain ⟨x, hx, hp⟩ := List.countP_pos_iff.mp h0
        refine ⟨line, List.mem_cons_self _ _, x, hx, ?_⟩
        simpa using hp
      · have h1 : 0 < letterCount T L c := by omega
        obtain ⟨l2, hl2, x, hx, hp⟩ := ih.mp h1
        exact ⟨l2, List.mem_cons_of_mem _ hl2, x, hx, hp⟩
    · rintro ⟨l2, hl2, x, hx, hp⟩
      rcases List.mem_cons.mp hl2 with h | h
      · subst h
        have : 0 < l2.data.countP (fun x => IsLetter T x && ToLower T x == c) :=
          List.countP_pos_iff.mpr ⟨x, hx, by simpa using hp⟩
        omega
      · have : 0 < letterCount T L c := ih.mpr ⟨l2, h, x, hx, hp⟩
        omega

/-- What `MostCommonLetter` prints, for any order in which `range` visits the map. -/
theorem MostCommonLetter.cases (T : UnicodeTables)
    (range : LetterFrequencyMap → List (Char × Nat)) (hr : RangeOrder range) (L : List String) :
    ((∀ c, letterCount T L c = 0) ∧ MostCommonLetter T range L = Output.couldNotCalculate) ∨
    (∃ c, MostCommonLetter T range L = Output.mostCommonLetter c ∧ 0 < letterCount T L c ∧
      ∀ d, letterCount T L d ≤ letterCount T L c) := by
  have hperm := hr (MostCommonLetter.letterFrequencyMap T [] L)
  rcases MostCommonLetter.report_cases (range (MostCommonLetter.letterFrequencyMap T [] L)) with
    ⟨h1, h2⟩ | ⟨e, he, h2, h3⟩
  · left
    refine ⟨fun c => ?_, h2⟩
    rw [h1] at hperm
    have hnil : MostCommonLetter.letterFrequencyMap T [] L = [] := (List.Perm.nil_eq hperm).symm
    by_contra hc
    have hmem := (MostCommonLetter.mem_letterFrequencyMap T L c (letterCount T L c)).mpr
      ⟨Nat.pos_of_ne_zero hc, rfl⟩
    rw [hnil] at hmem
    simp at hmem
  · right
    have hem : (e.1, e.2) ∈ MostCommonLetter.letterFrequencyMap T [] L := hperm.mem_iff.mp he
    obtain ⟨hpos, hcount⟩ := (MostCommonLetter.mem_letterFrequencyMap T L e.1 e.2).mp hem
    refine ⟨e.1, h2, by omega, fun d => ?_⟩
    by_cases hd : letterCount T L d = 0
    · omega
    · have hmem := (MostCommonLetter.mem_letterFrequencyMap T L d (letterCount T L d)).mpr
        ⟨Nat.pos_of_ne_zero hd, rfl⟩
      have := h3 (d, letterCount T L d) (hperm.mem_iff.mpr hmem)
      simp only at this
      omega

/-! ### Texts within Latin-1 do not consult the tables -/

/-- Every character of every line is at most `MaxLatin1`. -/
theorem IsLetter_latin1 (T : UnicodeTables) (x : Char) (h : x.toNat ≤ MaxLatin1) :
    IsLetter T x = IsLetter noTables x := by
  simp [IsLetter, h]

theorem ToLower_latin1 (T : UnicodeTables) (x : Char) (h : x.toNat ≤ MaxLatin1) :
    ToLower T x = ToLower noTables x := by
  simp [ToLower, toLowerCaseRanges, h]

theorem MostCommonLetter.line_latin1 (T : UnicodeTables) (s : List Char)
    (h : ∀ x ∈ s, x.toNat ≤ MaxLatin1) :
    ∀ m, MostCommonLetter.line T m s = MostCommonLetter.line noTables m s := by
  induction s with
  | nil => intro m; rfl
  | cons x s ih =>
    intro m
    have hx := h x (List.mem_cons_self _ _)
    simp only [MostCommonLetter.line, IsLetter_latin1 T x hx, ToLower_latin1 T x hx,
      ih (fun y hy => h y (List.mem_cons_of_mem _ hy))]

theorem MostCommonLetter.letterFrequencyMap_latin1 (T : UnicodeTables) (L : List String)
    (h : ∀ line ∈ L, ∀ x ∈ line.data, x.toNat ≤ MaxLatin1) :
    ∀ m, MostCommonLetter.letterFrequencyMap T m L =
      MostCommonLetter.letterFrequencyMap noTables m L := by
  induction L with
  | nil => intro m; rfl
  | cons line L ih =>
    intro m
    simp only [MostCommonLetter.letterFrequencyMap,
      MostCommonLetter.line_latin1 T line.data (h line (List.mem_cons_self _ _)),
      ih (fun l hl => h l (List.mem_cons_of_mem _ hl))]

theorem foxLines_latin1 : ∀ line ∈ foxLines, ∀ x ∈ line.data, x.toNat ≤ MaxLatin1 := by
  decide

theorem fox_letterFrequencyMap (T : UnicodeTables) :
    MostCommonLetter.letterFrequencyMap T [] foxLines =
      [('t', 2), ('h', 2), ('e', 3), ('q', 1), ('u', 2), ('i', 1), ('c', 1), ('k', 1), ('b', 1),
        ('r', 2), ('o', 4), ('w', 1), ('n', 1), ('f', 1), ('x', 1), ('j', 1), ('m', 1), ('p', 1),
        ('s', 1), ('v', 1), ('l', 1), ('a', 1), ('z', 1), ('y', 1), ('d', 1), ('g', 1)] := by
  rw [MostCommonLetter.letterFrequencyMap_latin1 T foxLines foxLines_latin1]
  decide

theorem fox_letterCount_o (T : UnicodeTables) : letterCount T foxLines 'o' = 4 := by
  have hmem : ('o', 4) ∈ MostCommonLetter.letterFrequencyMap T [] foxLines := by
    rw [fox_letterFrequencyMap T]
    decide
  exact ((MostCommonLetter.mem_letterFrequencyMap T foxLines 'o' 4).mp hmem).2

theorem fox_letterCount (T : UnicodeTables) (d : Char) :
    letterCount T foxLines d ≤ 4 ∧ (letterCount T foxLines d = 4 → d = 'o') := by
  by_cases h0 : letterCount T foxLines d = 0
  · rw [h0]; exact ⟨by omega, fun h => absurd h (by decide)⟩
  · have hmem := (MostCommonLetter.mem_letterFrequencyMap T foxLines d
      (letterCount T foxLines d)).mpr ⟨Nat.pos_of_ne_zero h0, rfl⟩
    rw [fox_letterFrequencyMap T] at hmem
    simp only [List.mem_cons, Prod.mk.injEq, List.mem_nil_iff, or_false] at hmem
    rcases hmem with h | h | h | h | h | h | h | h | h | h | h | h | h | h | h | h | h | h | h |
      h | h | h | h | h | h | h <;>
    first
      | exact ⟨by omega, fun _ => h.1⟩
      | exact ⟨by omega, fun h4 => absurd h4 (by omega)⟩

/-- C4: run on a channel that delivers the lines `L` and is then closed,
whatever the order in which `range` visits the map, `MostCommonLetter` prints
the "Could not calculate" message when no line holds a letter, and otherwise
prints a character `c` that is the lowercase form of a letter of `L` and
whose letter count (letters of `L` with lowercase form `c`) is at least the
count of every other character; on the two-line fox text it prints `o`. -/
theorem MostCommonLetter_reports_most_frequent (T : UnicodeTables)
    (range : LetterFrequencyMap → List (Char × Nat)) (hr : RangeOrder range) (L : List String) :
    ((∀ line ∈ L, ∀ x ∈ line.data, IsLetter T x = false) →
      MostCommonLetter T range L = Output.couldNotCalculate) ∧
    ((∃ line ∈ L, ∃ x ∈ line.data, IsLetter T x = true) →
      ∃ c, MostCommonLetter T range L = Output.mostCommonLetter c ∧
        0 < letterCount T L c ∧ ∀ d, letterCount T L d ≤ letterCount T L c) ∧
    MostCommonLetter T range foxLines = Output.mostCommonLetter 'o' := by
  refine ⟨?_, ?_, ?_⟩
  · intro hno
    rcases MostCommonLetter.cases T range hr L with ⟨_, h⟩ | ⟨c, _, hpos, _⟩
    · exact h
    · obtain ⟨line, hl, x, hx, hlet, _⟩ := (letterCount_pos_iff T L c).mp hpos
      rw [hno line hl x hx] at hlet
      exact absurd hlet (by simp)
  · rintro ⟨line, hl, x, hx, hlet⟩
    rcases MostCommonLetter.cases T range hr L with ⟨h0, _⟩ | h
    · have := (letterCount_pos_iff T L (ToLower T x)).mpr ⟨line, hl, x, hx, hlet, rfl⟩
      rw [h0] at this
      exact absurd this (lt_irrefl _)
    · exact h
  · rcases MostCommonLetter.cases T range hr foxLines with ⟨h0, _⟩ | ⟨c, hc, _, hmax⟩
    · have h4 := fox_letterCount_o T
      rw [h0] at h4
      exact absurd h4 (by decide)
    · have h4 := fox_letterCount_o T
      have h1 := hmax 'o'
      have h2 := fox_letterCount T c
      rw [hc, h2.2 (by omega)]

/-- Witness for C4: the identity visiting order on the fox text. -/
theorem MostCommonLetter_reports_most_frequent_witness :
    RangeOrder id ∧ MostCommonLetter noTables id foxLines = Output.mostCommonLetter 'o' :=
  ⟨fun m => List.Perm.refl m,
    (MostCommonLetter_reports_most_frequent noTables id (fun m => List.Perm.refl m) foxLines).2.2⟩

/-! ### The keys of the letter-frequency map -/

theorem Char.toNat_ofNat_small (n : Nat) (h : n < 0xD800) : (Char.ofNat n).toNat = n := by
  have hv : n.isValidChar := Or.inl h
  simp [Char.ofNat, hv, Char.ofNatAux, Char.toNat, UInt32.toNat]

theorem ToLower_ascii (T : UnicodeTables) (x : Char) (hl : IsLetter T x = true)
    (ha : x.toNat ≤ MaxASCII) :
    0x61 ≤ (ToLower T x).toNat ∧ (ToLower T x).toNat ≤ 0x7A := by
  have h1 : x.toNat ≤ MaxLatin1 := by unfold MaxASCII at ha; unfold MaxLatin1; omega
  simp only [IsLetter, h1, if_true, latin1Letter, Bool.or_eq_true, Bool.and_eq_true,
    decide_eq_true_eq, beq_iff_eq] at hl
  unfold MaxASCII at ha
  by_cases hu : 0x41 ≤ x.toNat ∧ x.toNat ≤ 0x5A
  · have : ToLower T x = Char.ofNat (x.toNat + (0x61 - 0x41)) := by
      simp [ToLower, MaxASCII, ha, hu.1, hu.2]
    rw [this, Char.toNat_ofNat_small _ (by omega)]
    omega
  · have : ToLower T x = x := by
      simp only [ToLower, MaxASCII, ha, if_true]
      split
      · rename_i hh
        simp only [Bool.and_eq_true, decide_eq_true_eq] at hh
        exact absurd hh hu
      · rfl
    rw [this]
    omega

theorem IsLower_of_ascii_range (T : UnicodeTables) (c : Char)
    (h : 0x61 ≤ c.toNat ∧ c.toNat ≤ 0x7A) : IsLower T c = true := by
  have h1 : c.toNat ≤ MaxLatin1 := by unfold MaxLatin1; omega
  simp [IsLower, h1, latin1Lower, h.1, h.2]

/-- C8 as the specification words it fails: on the one-line text whose only
character is U+00AA (a letter without case), the map has the key U+00AA,
which is not a lowercase letter, and that character is the one printed. -/
theorem MostCommonLetter_key_not_lower :
    ¬ (∀ (T : UnicodeTables) (range : LetterFrequencyMap → List (Char × Nat)) (L : List String),
        RangeOrder range → (∃ line ∈ L, ∃ x ∈ line.data, IsLetter T x = true) →
        (∀ e ∈ MostCommonLetter.letterFrequencyMap T [] L, IsLower T e.1 = true) ∧
        (∀ c, MostCommonLetter T range L = Output.mostCommonLetter c → IsLower T c = true)) := by
  intro h
  have h1 := h noTables id ordinalLines (fun m => List.Perm.refl m) (by decide)
  have h2 := h1.2 (Char.ofNat 0xAA) (by decide)
  exact absurd h2 (by decide)

/-- C8, amended: when the lines `L` hold at least one letter, every key of
the map of `MostCommonLetter` is `unicode.ToLower` of a letter of `L`, the
line printed is "Most common letter is: " followed by a single character that
is one of the keys, and when every letter of `L` is ASCII every key (so also
the character printed) is one of the lowercase letters a-z. -/
theorem MostCommonLetter_keys (T : UnicodeTables)
    (range : LetterFrequencyMap → List (Char × Nat)) (hr : RangeOrder range) (L : List String)
    (hL : ∃ line ∈ L, ∃ x ∈ line.data, IsLetter T x = true) :
    (∀ e ∈ MostCommonLetter.letterFrequencyMap T [] L,
      ∃ line ∈ L, ∃ x ∈ line.data, IsLetter T x = true ∧ ToLower T x = e.1) ∧
    (∃ e ∈ MostCommonLetter.letterFrequencyMap T [] L,
      MostCommonLetter T range L = Output.mostCommonLetter e.1 ∧
      (MostCommonLetter T range L).text =
        "Most common letter is: " ++ String.singleton e.1 ++ "\n") ∧
    ((∀ line ∈ L, ∀ x ∈ line.data, IsLetter T x = true → x.toNat ≤ MaxASCII) →
      ∀ e ∈ MostCommonLetter.letterFrequencyMap T [] L,
        0x61 ≤ e.1.toNat ∧ e.1.toNat ≤ 0x7A ∧ IsLower T e.1 = true) := by
  have hkey : ∀ e ∈ MostCommonLetter.letterFrequencyMap T [] L,
      ∃ line ∈ L, ∃ x ∈ line.data, IsLetter T x = true ∧ ToLower T x = e.1 := by
    intro e he
    have := (MostCommonLetter.mem_letterFrequencyMap T L e.1 e.2).mp he
    exact (letterCount_pos_iff T L e.1).mp (by omega)
  refine ⟨hkey, ?_, ?_⟩
  · have hperm := hr (MostCommonLetter.letterFrequencyMap T [] L)
    rcases MostCommonLetter.report_cases (range (MostCommonLetter.letterFrequencyMap T [] L)) with
      ⟨h1, _⟩ | ⟨e, he, h2, _⟩
    · exfalso
      rw [h1] at hperm
      have hnil : MostCommonLetter.letterFrequencyMap T [] L = [] := (List.Perm.nil_eq hperm).symm
      obtain ⟨line, hl, x, hx, hlet⟩ := hL
      have hpos := (letterCount_pos_iff T L (ToLower T x)).mpr ⟨line, hl, x, hx, hlet, rfl⟩
      have hmem := (MostCommonLetter.mem_letterFrequencyMap T L (ToLower T x)
        (letterCount T L (ToLower T x))).mpr ⟨hpos, rfl⟩
      rw [hnil] at hmem
      simp at hmem
    · refine ⟨e, hperm.mem_iff.mp he, h2, ?_⟩
      have h3 : MostCommonLetter T range L = Output.mostCommonLetter e.1 := h2
      rw [h3]
      rfl
  · intro hascii e he
    obtain ⟨line, hl, x, hx, hlet, hlow⟩ := hkey e he
    have := ToLower_ascii T x hlet (hascii line hl x hx hlet)
    rw [hlow] at this
    exact ⟨this.1, this.2, IsLower_of_ascii_range T e.1 this⟩

/-- Witness for C8: the fox text. -/
theorem MostCommonLetter_keys_witness :
    RangeOrder id ∧ (∃ line ∈ foxLines, ∃ x ∈ line.data, IsLetter noTables x = true) ∧
    ∃ e ∈ MostCommonLetter.letterFrequencyMap noTables [] foxLines,
      MostCommonLetter noTables id foxLines = Output.mostCommonLetter e.1 ∧
      (MostCommonLetter noTables id foxLines).text =
        "Most common letter is: " ++ String.singleton e.1 ++ "\n" :=
  ⟨fun m => List.Perm.refl m, by decide,
    (MostCommonLetter_keys noTables id (fun m => List.Perm.refl m) foxLines (by decide)).2.1⟩

/-! ### The counters of `AverageLettersPerWord` -/

theorem AverageLettersPerWord.letters_eq (T : UnicodeTables) (s : List Char) :
    ∀ n, AverageLettersPerWord.letters T n s = n + s.countP (IsLetter T) := by
  induction s with
  | nil => intro n; simp [AverageLettersPerWord.letters]
  | cons x s ih =>
    intro n
    by_cases hx : IsLetter T x = true
    · simp [AverageLettersPerWord.letters, hx, ih, List.countP_cons]; omega
    · simp [AverageLettersPerWord.letters, hx, ih, List.countP_cons]

theorem AverageLettersPerWord.counters_eq (T : UnicodeTables) (L : List String) :
    ∀ a w, AverageLettersPerWord.counters T a w L = (a + totalLetters T L, w + totalWords L) := by
  induction L with
  | nil => intro a w; simp [AverageLettersPerWord.counters, totalLetters, totalWords]
  | cons line L ih =>
    intro a w
    simp only [AverageLettersPerWord.counters, ih, AverageLettersPerWord.letters_eq,
      lenFields_eq_tokens, totalLetters, totalWords, List.map_cons, List.sum_cons, Prod.mk.injEq]
    constructor <;> omega

theorem totalLetters_latin1 (T : UnicodeTables) (L : List String)
    (h : ∀ line ∈ L, ∀ x ∈ line.data, x.toNat ≤ MaxLatin1) :
    totalLetters T L = totalLetters noTables L := by
  induction L with
  | nil => rfl
  | cons line L ih =>
    have h1 : line.data.countP (IsLetter T) = line.data.countP (IsLetter noTables) := by
      apply List.countP_congr
      intro x hx
      rw [IsLetter_latin1 T x (h line (List.mem_cons_self _ _) x hx)]
    have h2 := ih (fun l hl => h l (List.mem_cons_of_mem _ hl))
    simp only [totalLetters, List.map_cons, List.sum_cons] at h2 ⊢
    rw [h1, h2]

theorem fox_counters (T : UnicodeTables) :
    AverageLettersPerWord.counters T 0 0 foxLines = (35, 9) := by
  rw [AverageLettersPerWord.counters_eq, totalLetters_latin1 T foxLines foxLines_latin1,
    ← AverageLettersPerWord.counters_eq]
  decide

/-- C9 as the specification words it fails: on the two-line fox text the
counters of `AverageLettersPerWord` are not 26 letters and 8 words. -/
theorem AverageLettersPerWord_fox_ne_26_8 :
    AverageLettersPerWord.counters noTables 0 0 foxLines ≠ (26, 8) := by
  decide

/-- C9, amended: on the two-line fox text `AverageLettersPerWord` has counted
35 letters and 9 words when its channel is closed, the average it passes to
`Printf` is the `float64` nearest to 35 / 9, and the line printed shows 3.89. -/
theorem AverageLettersPerWord_fox (T : UnicodeTables) :
    AverageLettersPerWord.counters T 0 0 foxLines = (35, 9) ∧
    AverageLettersPerWord T foxLines =
      Output.averageLettersPerWord (Float64.div (Float64.ofInt 35) (Float64.ofInt 9)) ∧
    Float64.div (Float64.ofInt 35) (Float64.ofInt 9) = Float64.finite 8756999275442631 (-51) ∧
    |(Float64.finite 8756999275442631 (-51)).toRat - 35 / 9| ≤ 1 / 2 ^ 52 ∧
    (AverageLettersPerWord T foxLines).text =
      "The average number of letters per word is: 3.89\n" := by
  have h := fox_counters T
  have h2 : AverageLettersPerWord T foxLines =
      Output.averageLettersPerWord (Float64.div (Float64.ofInt 35) (Float64.ofInt 9)) := by
    simp only [AverageLettersPerWord, h, AverageLettersPerWord.alpw]
    rfl
  refine ⟨h, h2, by decide, ?_, ?_⟩
  · rw [abs_le]
    norm_num [Float64.toRat]
  · rw [h2]
    decide

/-! ### The channel operations of the driver -/

theorem sent_append (c : StatChan) (a b : List ChanOp) :
    sent c (a ++ b) = sent c a ++ sent c b := by
  induction a with
  | nil => rfl
  | cons op a ih =>
    cases op with
    | send c2 line => by_cases h : c2 = c <;> simp [sent, h, ih]
    | close c2 => simp [sent, ih]

theorem sent_sendAll_of_not_mem (c : StatChan) (line : String) (stats : List Stat)
    (h : c ∉ stats.map Stat.c) : sent c (processFile.sendAll line stats) = [] := by
  induction stats with
  | nil => rfl
  | cons stat stats ih =>
    simp only [List.map_cons, List.mem_cons, not_or] at h
    have h1 : ¬ stat.c = c := fun e => h.1 e.symm
    simp [processFile.sendAll, sent, h1, ih h.2]

theorem sent_sendAll (line : String) (stats : List Stat) (hn : (stats.map Stat.c).Nodup)
    (stat : Stat) (hs : stat ∈ stats) : sent stat.c (processFile.sendAll line stats) = [line] := by
  induction stats with
  | nil => simp at hs
  | cons st stats ih =>
    simp only [List.map_cons, List.nodup_cons] at hn
    rcases List.mem_cons.mp hs with h | h
    · subst h
      simp [processFile.sendAll, sent, sent_sendAll_of_not_mem _ line stats hn.1]
    · have hne : ¬ st.c = stat.c := fun e => hn.1 (e ▸ List.mem_map_of_mem Stat.c h)
      simp [processFile.sendAll, sent, hne, ih hn.2 h]

theorem sent_processFile (L : List String) (stats : List Stat) (hn : (stats.map Stat.c).Nodup)
    (stat : Stat) (hs : stat ∈ stats) : sent stat.c (processFile L stats) = L := by
  induction L with
  | nil => rfl
  | cons line L ih => simp [processFile, sent_append, sent_sendAll line stats hn stat hs, ih]

theorem no_close_sendAll (line : String) (stats : List Stat) (c : StatChan) :
    ChanOp.close c ∉ processFile.sendAll line stats := by
  induction stats with
  | nil => simp [processFile.sendAll]
  | cons st stats ih => simp [processFile.sendAll, ih]

theorem no_close_processFile (L : List String) (stats : List Stat) (c : StatChan) :
    ChanOp.close c ∉ processFile L stats := by
  induction L with
  | nil => simp [processFile]
  | cons line L ih => simp [processFile, no_close_sendAll, ih]

theorem no_send_stopStats (stats : List Stat) (c : StatChan) (line : String) :
    ChanOp.send c line ∉ stopStats stats := by
  induction stats with
  | nil => simp [stopStats]
  | cons st stats ih => simp [stopStats, ih]

theorem stopStats_eq_map (stats : List Stat) :
    stopStats stats = stats.map fun stat => ChanOp.close stat.c := by
  induction stats with
  | nil => rfl
  | cons st stats ih => simp [stopStats, ih]

theorem sendAll_eq_map (line : String) (stats : List Stat) :
    processFile.sendAll line stats = stats.map fun stat => ChanOp.send stat.c line := by
  induction stats with
  | nil => rfl
  | cons st stats ih => simp [processFile.sendAll, ih]

theorem processFile_eq_join (L : List String) (stats : List Stat) :
    processFile L stats =
      (L.map fun line => stats.map fun stat => ChanOp.send stat.c line).flatten := by
  induction L with
  | nil => rfl
  | cons line L ih => simp [processFile, sendAll_eq_map, ih]

/-- The operations of `stopStats` around the close of one stat's channel. -/
theorem stopStats_split (stats : List Stat) (hn : (stats.map Stat.c).Nodup)
    (stat : Stat) (hs : stat ∈ stats) :
    ∃ pre post, stopStats stats = pre ++ ChanOp.close stat.c :: post ∧
      ChanOp.close stat.c ∉ pre ∧ ChanOp.close stat.c ∉ post ∧
      (∀ c line, ChanOp.send c line ∉ pre) ∧ (∀ c line, ChanOp.send c line ∉ post) := by
  induction stats with
  | nil => simp at hs
  | cons st stats ih =>
    simp only [List.map_cons, List.nodup_cons] at hn
    rcases List.mem_cons.mp hs with h | h
    · subst h
      refine ⟨[], stopStats stats, rfl, by simp, ?_, by simp, fun c line => no_send_stopStats _ _ _⟩
      rw [stopStats_eq_map]
      intro hmem
      obtain ⟨s2, hs2, he⟩ := List.mem_map.mp hmem
      injection he with he
      exact hn.1 (he ▸ List.mem_map_of_mem Stat.c hs2)
    · obtain ⟨pre, post, h1, h2, h3, h4, h5⟩ := ih hn.2 h
      have hne : ¬ st.c = stat.c := fun e => hn.1 (e ▸ List.mem_map_of_mem Stat.c h)
      refine ⟨ChanOp.close st.c :: pre, post, by simp [stopStats, h1], ?_, h3, ?_, h5⟩
      · have hne2 : ¬ stat.c = st.c := fun e => hne e.symm
        simp [hne2, h2]
      · intro c line
        simp [h4 c line]

theorem received_append_close (c : StatChan) (pre post : List ChanOp)
    (h : ChanOp.close c ∉ pre) : received c (pre ++ ChanOp.close c :: post) = sent c pre := by
  induction pre with
  | nil => simp [received, sent]
  | cons op pre ih =>
    simp only [List.mem_cons, not_or] at h
    cases op with
    | send c2 line => by_cases hc : c2 = c <;> simp [received, sent, hc, ih h.2]
    | close c2 =>
      have hne : ¬ c2 = c := fun e => h.1 (by rw [e])
      simp [received, sent, hne, ih h.2]

/-- The trace of `processFile` followed by `stopStats`, seen from one stat. -/
theorem trace_of_stat (L : List String) (stats : List Stat)
    (hn : (stats.map Stat.c).Nodup) (stat : Stat) (hs : stat ∈ stats) :
    sent stat.c (processFile L stats ++ stopStats stats) = L ∧
    received stat.c (processFile L stats ++ stopStats stats) = L ∧
    ∃ pre post, processFile L stats ++ stopStats stats = pre ++ ChanOp.close stat.c :: post ∧
      sent stat.c pre = L ∧ sent stat.c post = [] ∧
      ChanOp.close stat.c ∉ pre ∧ ChanOp.close stat.c ∉ post := by
  obtain ⟨pre, post, h1, h2, h3, h4, h5⟩ := stopStats_split stats hn stat hs
  have hpre : sent stat.c pre = [] := by
    clear h1 h2
    induction pre with
    | nil => rfl
    | cons op pre ih =>
      cases op with
      | send c2 line => exact absurd (List.mem_cons_self _ _) (h4 c2 line)
      | close c2 =>
        simp only [sent]
        exact ih (fun c line hm => h4 c line (List.mem_cons_of_mem _ hm))
  have hpost : sent stat.c post = [] := by
    clear h1 h3
    induction post with
    | nil => rfl
    | cons op post ih =>
      cases op with
      | send c2 line => exact absurd (List.mem_cons_self _ _) (h5 c2 line)
      | close c2 =>
        simp only [sent]
        exact ih (fun c line hm => h5 c line (List.mem_cons_of_mem _ hm))
  have hsplit : processFile L stats ++ stopStats stats =
      (processFile L stats ++ pre) ++ ChanOp.close stat.c :: post := by
    rw [h1, List.append_assoc]
  have hnc : ChanOp.close stat.c ∉ processFile L stats ++ pre := by
    simp [no_close_processFile, h2]
  have hsent : sent stat.c (processFile L stats ++ pre) = L := by
    rw [sent_append, sent_processFile L stats hn stat hs, hpre, List.append_nil]
  refine ⟨?_, ?_, processFile L stats ++ pre, post, hsplit, hsent, hpost, hnc, h3⟩
  · rw [hsplit, sent_append, hsent]
    simp [sent, hpost]
  · rw [hsplit, received_append_close _ _ _ hnc, hsent]

/-- C5: for the lines `L` that the scanner yields and stats with pairwise
different channels, the channel operations of `processFile` followed by
`stopStats` are: for each line in source order one send of that line to every
stat in registration order, then one close per stat; so for each stat the
values sent on its channel are exactly the lines of `L`, in order, each once
and unchanged, its channel is closed exactly once, and everything sent on
that channel comes before that close. -/
theorem processFile_stopStats_trace (L : List String) (stats : List Stat)
    (hn : (stats.map Stat.c).Nodup) :
    processFile L stats ++ stopStats stats =
      (L.map fun line => stats.map fun stat => ChanOp.send stat.c line).flatten ++
        stats.map (fun stat => ChanOp.close stat.c) ∧
    ∀ stat ∈ stats,
      sent stat.c (processFile L stats ++ stopStats stats) = L ∧
      received stat.c (processFile L stats ++ stopStats stats) = L ∧
      ∃ pre post, processFile L stats ++ stopStats stats = pre ++ ChanOp.close stat.c :: post ∧
        sent stat.c pre = L ∧ sent stat.c post = [] ∧
        ChanOp.close stat.c ∉ pre ∧ ChanOp.close stat.c ∉ post :=
  ⟨by rw [processFile_eq_join, stopStats_eq_map], fun stat hs => trace_of_stat L stats hn stat hs⟩

/-- Witness for C5: the fox text and the four stats of `main`, seen from the
channel of `WordCount`. -/
theorem processFile_stopStats_trace_witness :
    ((mainStats noTables id).map Stat.c).Nodup ∧
    sent 1 (processFile foxLines (mainStats noTables id) ++
      stopStats (mainStats noTables id)) = foxLines :=
  ⟨by decide, ((processFile_stopStats_trace foxLines (mainStats noTables id) (by decide)).2
    ⟨WordCount, 1⟩ (by simp [mainStats])).1⟩

/-! ### Each accumulator alone and all four together -/

theorem runStats_eq (stats : List Stat) (hn : (stats.map Stat.c).Nodup) (L : List String) :
    runStats stats L = stats.map fun stat => stat.f L := by
  unfold runStats
  apply List.map_congr_left
  intro stat hs
  rw [(trace_of_stat L stats hn stat hs).2.1]

/-- C7 as the specification words it fails for `MostCommonLetter`: on the
one-line text "ab" it prints `a` when `range` visits the map in the order of
insertion and `b` when `range` visits it in the opposite order, so its report
alone in one run and together with the others in another run can differ. -/
theorem runStats_alone_ne_together :
    ¬ (∀ (T : UnicodeTables) (range₁ range₂ : LetterFrequencyMap → List (Char × Nat))
        (L : List String), RangeOrder range₁ → RangeOrder range₂ →
        (runStats [⟨MostCommonLetter T range₁, 2⟩] L)[0]? =
          (runStats (mainStats T range₂) L)[2]?) := by
  intro h
  have h1 := h noTables id List.reverse ["ab"] (fun m => List.Perm.refl m)
    (fun m => List.reverse_perm m)
  exact absurd h1 (by decide)

/-- C7, amended: on the lines `L`, each of `LineCount`, `WordCount` and
`AverageLettersPerWord` prints the same report when it is the only stat as
when all four run together, a function of `L` alone; `MostCommonLetter`
prints in both settings what its own scan of the map built from `L` yields,
which depends on nothing but `L` and the order in which `range` visits that
map: for any two visiting orders either both runs print the "Could not
calculate" message or both print a letter, and the two letters have the same
letter count in `L`. -/
theorem runStats_alone_eq_together (T : UnicodeTables)
    (range₁ range₂ : LetterFrequencyMap → List (Char × Nat))
    (h₁ : RangeOrder range₁) (h₂ : RangeOrder range₂) (L : List String) (c : StatChan) :
    runStats [⟨LineCount, c⟩] L = [LineCount L] ∧
    runStats [⟨WordCount, c⟩] L = [WordCount L] ∧
    runStats [⟨AverageLettersPerWord T, c⟩] L = [AverageLettersPerWord T L] ∧
    runStats [⟨MostCommonLetter T range₁, c⟩] L = [MostCommonLetter T range₁ L] ∧
    runStats (mainStats T range₂) L =
      [LineCount L, WordCount L, MostCommonLetter T range₂ L, AverageLettersPerWord T L] ∧
    (MostCommonLetter T range₁ L = Output.couldNotCalculate ↔
      MostCommonLetter T range₂ L = Output.couldNotCalculate) ∧
    (∀ c₁ c₂, MostCommonLetter T range₁ L = Output.mostCommonLetter c₁ →
      MostCommonLetter T range₂ L = Output.mostCommonLetter c₂ →
      letterCount T L c₁ = letterCount T L c₂) := by
  refine ⟨?_, ?_, ?_, ?_, ?_, ?_, ?_⟩
  · rw [runStats_eq _ (by simp)]; rfl
  · rw [runStats_eq _ (by simp)]; rfl
  · rw [runStats_eq _ (by simp)]; rfl
  · rw [runStats_eq _ (by simp)]; rfl
  · rw [runStats_eq _ (by simp [mainStats])]; rfl
  · rcases MostCommonLetter.cases T range₁ h₁ L with ⟨a0, a1⟩ | ⟨a, a1, a2, a3⟩ <;>
      rcases MostCommonLetter.cases T range₂ h₂ L with ⟨b0, b1⟩ | ⟨b, b1, b2, b3⟩
    · simp [a1, b1]
    · rw [a0] at b2; exact absurd b2 (lt_irrefl _)
    · rw [b0] at a2; exact absurd a2 (lt_irrefl _)
    · simp [a1, b1]
  · intro c₁ c₂ e₁ e₂
    rcases MostCommonLetter.cases T range₁ h₁ L with ⟨a0, a1⟩ | ⟨a, a1, a2, a3⟩
    · rw [a1] at e₁; cases e₁
    · rcases MostCommonLetter.cases T range₂ h₂ L with ⟨b0, b1⟩ | ⟨b, b1, b2, b3⟩
      · rw [b1] at e₂; cases e₂
      · rw [a1] at e₁
        rw [b1] at e₂
        injection e₁ with e₁
        injection e₂ with e₂
        subst e₁ e₂
        exact le_antisymm (b3 a) (a3 b)

/-- Witness for C7: the fox text, insertion order alone and the opposite
order together. -/
theorem runStats_alone_eq_together_witness :
    RangeOrder id ∧ RangeOrder List.reverse ∧
    runStats [⟨MostCommonLetter noTables id, 2⟩] foxLines = [Output.mostCommonLetter 'o'] ∧
    runStats (mainStats noTables List.reverse) foxLines =
      [LineCount foxLines, WordCount foxLines, MostCommonLetter noTables List.reverse foxLines,
        AverageLettersPerWord noTables foxLines] :=
  ⟨fun m => List.Perm.refl m, fun m => List.reverse_perm m,
    (runStats_alone_eq_together noTables id List.reverse (fun m => List.Perm.refl m)
      (fun m => List.reverse_perm m) foxLines 2).2.2.2.1.trans (by decide),
    (runStats_alone_eq_together noTables id List.reverse (fun m => List.Perm.refl m)
      (fun m => List.reverse_perm m) foxLines 2).2.2.2.2.1⟩

/-! ### `float64` rounding -/

theorem ilog2_go_spec (fuel : Nat) : ∀ n, 0 < n → n ≤ fuel →
    2 ^ ilog2.go fuel n ≤ n ∧ n < 2 ^ (ilog2.go fuel n + 1) := by
  induction fuel with
  | zero => intro n h0 h1; omega
  | succ fuel ih =>
    intro n h0 h1
    by_cases h2 : n < 2
    · have : n = 1 := by omega
      subst this
      simp [ilog2.go]
    · simp only [ilog2.go, h2, if_false]
      obtain ⟨ha, hb⟩ := ih (n / 2) (by omega) (by omega)
      rw [pow_succ, pow_succ]
      rw [pow_succ] at hb
      constructor <;> omega

theorem ilog2_spec (n : Nat) (h : 0 < n) : 2 ^ ilog2 n ≤ n ∧ n < 2 ^ (ilog2 n + 1) :=
  ilog2_go_spec n n h (le_refl n)

theorem roundHalfEven_spec (n d : Nat) (hd : 0 < d) :
    2 * (roundHalfEven n d * d) ≤ 2 * n + d ∧ 2 * n ≤ 2 * (roundHalfEven n d * d) + d := by
  have h1 := Nat.div_add_mod n d
  have h2 := Nat.mod_lt n hd
  have h3 : d * (n / d) = n / d * d := Nat.mul_comm _ _
  have h4 : (n / d + 1) * d = n / d * d + d := by ring
  unfold roundHalfEven
  simp only
  split_ifs <;> (try rw [h4]) <;> constructor <;> omega

theorem roundHalfEven_rat (n d : Nat) (hd : 0 < d) :
    |(roundHalfEven n d : ℚ) - (n : ℚ) / (d : ℚ)| ≤ 1 / 2 := by
  obtain ⟨h1, h2⟩ := roundHalfEven_spec n d hd
  have hd' : (0 : ℚ) < d := by exact_mod_cast hd
  have h1' : (2 : ℚ) * ((roundHalfEven n d : ℚ) * d) ≤ 2 * n + d := by exact_mod_cast h1
  have h2' : (2 : ℚ) * n ≤ 2 * ((roundHalfEven n d : ℚ) * d) + d := by exact_mod_cast h2
  have hx : (n : ℚ) / (d : ℚ) * d = n := div_mul_cancel₀ _ (ne_of_gt hd')
  generalize (n : ℚ) / (d : ℚ) = x at hx
  rw [abs_le]
  constructor <;> nlinarith

theorem binade_spec (num den : Nat) (hn : 0 < num) (hd : 0 < den) :
    (2 : ℚ) ^ (binade num den + 52) * (den : ℚ) ≤ (num : ℚ) := by
  obtain ⟨hn1, _⟩ := ilog2_spec num hn
  obtain ⟨_, hd2⟩ := ilog2_spec den hd
  have hpd : (0 : ℚ) < (2 : ℚ) ^ ilog2 den := by positivity
  unfold binade
  split_ifs with hc
  · have he : (ilog2 num : Int) - (ilog2 den : Int) - 52 + 52 =
        (ilog2 num : Int) - (ilog2 den : Int) := by ring
    rw [he, zpow_sub₀ (by norm_num), zpow_natCast, zpow_natCast, div_mul_eq_mul_div,
      div_le_iff₀ hpd]
    have hc' : (den : ℚ) * (2 : ℚ) ^ ilog2 num ≤ (num : ℚ) * (2 : ℚ) ^ ilog2 den := by
      exact_mod_cast hc
    linarith
  · have he : (ilog2 num : Int) - (ilog2 den : Int) - 53 + 52 =
        (ilog2 num : Int) - ((ilog2 den + 1 : Nat) : Int) := by push_cast; ring
    have hpd1 : (0 : ℚ) < (2 : ℚ) ^ (ilog2 den + 1) := by positivity
    rw [he, zpow_sub₀ (by norm_num), zpow_natCast, zpow_natCast, div_mul_eq_mul_div,
      div_le_iff₀ hpd1]
    have h1 : den * 2 ^ ilog2 num ≤ 2 ^ (ilog2 den + 1) * num :=
      Nat.mul_le_mul (le_of_lt hd2) hn1
    have h1' : (den : ℚ) * (2 : ℚ) ^ ilog2 num ≤ (2 : ℚ) ^ (ilog2 den + 1) * (num : ℚ) := by
      exact_mod_cast h1
    linarith

/-- The value `ofQuot` returns is within relative error `2^-53` of the quotient. -/
theorem Float64.ofQuot_spec (num den : Nat) (hn : 0 < num) (hd : 0 < den) :
    ∃ m e, Float64.ofQuot num den = Float64.finite m e ∧
      |(m : ℚ) * (2 : ℚ) ^ e - (num : ℚ) / (den : ℚ)| ≤ (num : ℚ) / (den : ℚ) / 2 ^ 53 := by
  have hB := binade_spec num den hn hd
  have hd' : (0 : ℚ) < den := by exact_mod_cast hd
  have hq : (num : ℚ) / (den : ℚ) * den = num := div_mul_cancel₀ _ (ne_of_gt hd')
  have hn0 : num ≠ 0 := by omega
  unfold Float64.ofQuot
  simp only [hn0, if_false]
  generalize binade num den = e at hB
  by_cases he : 0 ≤ e
  · simp only [he, if_true]
    refine ⟨_, _, rfl, ?_⟩
    obtain ⟨k, rfl⟩ := Int.eq_ofNat_of_zero_le he
    simp only [Int.toNat_ofNat]
    have hP : (0 : ℚ) < (2 : ℚ) ^ k := by positivity
    have hr := roundHalfEven_rat num (den * 2 ^ k) (by positivity)
    rw [zpow_add₀ (by norm_num), zpow_natCast] at hB
    rw [zpow_natCast]
    push_cast at hr
    have hx : (num : ℚ) / ((den : ℚ) * 2 ^ k) * 2 ^ k = (num : ℚ) / den := by
      field_simp
      ring
    generalize (num : ℚ) / ((den : ℚ) * 2 ^ k) = x at hx hr
    generalize (num : ℚ) / (den : ℚ) = q at hx hq
    generalize (2 : ℚ) ^ k = P at hP hB hx
    have hB2 : P * 2 ^ 52 ≤ q := by
      have : P * 2 ^ (52 : ℤ) * den ≤ q * den := by rw [hq]; exact hB
      have h52 : (2 : ℚ) ^ (52 : ℤ) = 2 ^ 52 := by norm_num
      rw [h52] at this
      exact le_of_mul_le_mul_right this hd'
    rw [abs_le] at hr ⊢
    obtain ⟨hr1, hr2⟩ := hr
    have p1 := mul_le_mul_of_nonneg_right hr1 (le_of_lt hP)
    have p2 := mul_le_mul_of_nonneg_right hr2 (le_of_lt hP)
    norm_num at hB2 ⊢
    constructor <;> nlinarith
  · simp only [he, if_false]
    refine ⟨_, _, rfl, ?_⟩
    have he' : 0 ≤ -e := by omega
    obtain ⟨k, hk⟩ := Int.eq_ofNat_of_zero_le he'
    have hek : e = -(k : ℤ) := by omega
    subst hek
    simp only [neg_neg, Int.toNat_ofNat]
    have hP : (0 : ℚ) < (2 : ℚ) ^ k := by positivity
    have hr := roundHalfEven_rat (num * 2 ^ k) den hd
    rw [zpow_add₀ (by norm_num), zpow_neg, zpow_natCast] at hB
    rw [zpow_neg, zpow_natCast]
    push_cast at hr
    have hx : (num : ℚ) * 2 ^ k / (den : ℚ) = (num : ℚ) / den * 2 ^ k := by
      field_simp
    rw [hx] at hr
    generalize (num : ℚ) / (den : ℚ) = q at hr hq
    have hPi : ((2 : ℚ) ^ k)⁻¹ * (2 : ℚ) ^ k = 1 := inv_mul_cancel₀ (ne_of_gt hP)
    have hPi0 : (0 : ℚ) < ((2 : ℚ) ^ k)⁻¹ := inv_pos.mpr hP
    generalize (2 : ℚ) ^ k = P at hP hB hr hPi hPi0
    generalize P⁻¹ = Q at hB hPi hPi0
    have hB2 : Q * 2 ^ 52 ≤ q := by
      have : Q * 2 ^ (52 : ℤ) * den ≤ q * den := by rw [hq]; exact hB
      have h52 : (2 : ℚ) ^ (52 : ℤ) = 2 ^ 52 := by norm_num
      rw [h52] at this
      exact le_of_mul_le_mul_right this hd'
    rw [abs_le] at hr ⊢
    obtain ⟨hr1, hr2⟩ := hr
    have hqPQ : q * P * Q = q := by rw [mul_assoc, mul_comm P Q, hPi, mul_one]
    have p1 := mul_le_mul_of_nonneg_right hr1 (le_of_lt hPi0)
    have p2 := mul_le_mul_of_nonneg_right hr2 (le_of_lt hPi0)
    norm_num at hB2 ⊢
    constructor <;> nlinarith

theorem roundHalfEven_one (x : Nat) : roundHalfEven x 1 = x := by
  simp [roundHalfEven, Nat.mod_one]

theorem ilog2_one : ilog2 1 = 0 := by decide

/-- The conversion of an `int` below `2^53` is exact. -/
theorem Float64.ofInt_exact (n : Nat) (h0 : 0 < n) (h : n < 2 ^ 53) :
    ∃ m e, Float64.ofInt n = Float64.finite m e ∧ 0 < m ∧ (m : ℚ) * (2 : ℚ) ^ e = n := by
  obtain ⟨h1, _⟩ := ilog2_spec n h0
  have hl : ilog2 n < 53 := (Nat.pow_lt_pow_iff_right (by norm_num : 1 < 2)).mp (lt_of_le_of_lt h1 h)
  have hn0 : n ≠ 0 := by omega
  have hb : binade n 1 = (ilog2 n : Int) - 52 := by
    simp [binade, ilog2_one, h1]
  unfold Float64.ofInt Float64.ofQuot
  simp only [hn0, if_false, hb]
  by_cases he : 0 ≤ (ilog2 n : Int) - 52
  · have h52 : ilog2 n = 52 := by omega
    simp only [h52]
    refine ⟨_, _, rfl, ?_, ?_⟩
    · simp [roundHalfEven_one]; omega
    · simp [roundHalfEven_one]
  · simp only [he, if_false]
    refine ⟨_, _, rfl, ?_, ?_⟩
    · rw [roundHalfEven_one]; positivity
    · rw [roundHalfEven_one]
      have hj : (-((ilog2 n : Int) - 52)).toNat = 52 - ilog2 n := by omega
      have he2 : (ilog2 n : Int) - 52 = -((52 - ilog2 n : Nat) : Int) := by omega
      rw [hj, he2, zpow_neg, zpow_natCast]
      push_cast
      have hP : (2 : ℚ) ^ (52 - ilog2 n) ≠ 0 := by positivity
      field_simp

theorem Float64.div_spec (m m2 : Nat) (e e2 : Int) (hm : 0 < m) (hm2 : 0 < m2) :
    ∃ m3 e3, Float64.div (Float64.finite m e) (Float64.finite m2 e2) = Float64.finite m3 e3 ∧
      |(m3 : ℚ) * (2 : ℚ) ^ e3 - (m : ℚ) * (2 : ℚ) ^ e / ((m2 : ℚ) * (2 : ℚ) ^ e2)| ≤
        (m : ℚ) * (2 : ℚ) ^ e / ((m2 : ℚ) * (2 : ℚ) ^ e2) / 2 ^ 53 := by
  have hm0 : m ≠ 0 := by omega
  have hm20 : m2 ≠ 0 := by omega
  have hm2' : (m2 : ℚ) ≠ 0 := by exact_mod_cast hm20
  have h2e : (2 : ℚ) ^ e ≠ 0 := zpow_ne_zero _ (by norm_num)
  have h2e2 : (2 : ℚ) ^ e2 ≠ 0 := zpow_ne_zero _ (by norm_num)
  simp only [Float64.div, hm0, hm20, if_false]
  by_cases hc : e2 ≤ e
  · simp only [hc, if_true]
    obtain ⟨m3, e3, h1, h2⟩ := Float64.ofQuot_spec (m * 2 ^ (e - e2).toNat) m2 (by positivity) hm2
    refine ⟨m3, e3, h1, ?_⟩
    have hq : ((m * 2 ^ (e - e2).toNat : Nat) : ℚ) / (m2 : ℚ) =
        (m : ℚ) * (2 : ℚ) ^ e / ((m2 : ℚ) * (2 : ℚ) ^ e2) := by
      have hk : ((e - e2).toNat : Int) = e - e2 := Int.toNat_of_nonneg (by omega)
      have hz : (2 : ℚ) ^ (e - e2).toNat = (2 : ℚ) ^ e / (2 : ℚ) ^ e2 := by
        rw [← zpow_natCast, hk, zpow_sub₀ (by norm_num)]
      push_cast
      rw [hz]
      field_simp
      ring
    rw [hq] at h2
    exact h2
  · simp only [hc, if_false]
    obtain ⟨m3, e3, h1, h2⟩ := Float64.ofQuot_spec m (m2 * 2 ^ (e2 - e).toNat) hm (by positivity)
    refine ⟨m3, e3, h1, ?_⟩
    have hq : (m : ℚ) / ((m2 * 2 ^ (e2 - e).toNat : Nat) : ℚ) =
        (m : ℚ) * (2 : ℚ) ^ e / ((m2 : ℚ) * (2 : ℚ) ^ e2) := by
      have hk : ((e2 - e).toNat : Int) = e2 - e := Int.toNat_of_nonneg (by omega)
      have hz : (2 : ℚ) ^ (e2 - e).toNat = (2 : ℚ) ^ e2 / (2 : ℚ) ^ e := by
        rw [← zpow_natCast, hk, zpow_sub₀ (by norm_num)]
      push_cast
      rw [hz]
      field_simp
    rw [hq] at h2
    exact h2

theorem hundredths_spec (m : Nat) (e : Int) :
    |(hundredths m e : ℚ) - 100 * ((m : ℚ) * (2 : ℚ) ^ e)| ≤ 1 / 2 := by
  unfold hundredths
  by_cases he : 0 ≤ e
  · simp only [he, if_true]
    obtain ⟨k, rfl⟩ := Int.eq_ofNat_of_zero_le he
    simp only [Int.toNat_ofNat]
    push_cast
    rw [zpow_natCast]
    have : (100 : ℚ) * (m : ℚ) * 2 ^ k - 100 * ((m : ℚ) * 2 ^ k) = 0 := by ring
    rw [this]
    norm_num
  · simp only [he, if_false]
    have he' : 0 ≤ -e := by omega
    obtain ⟨k, hk⟩ := Int.eq_ofNat_of_zero_le he'
    have hek : e = -(k : ℤ) := by omega
    subst hek
    simp only [neg_neg, Int.toNat_ofNat]
    have hr := roundHalfEven_rat (100 * m) (2 ^ k) (by positivity)
    push_cast at hr
    rw [zpow_neg, zpow_natCast]
    have hx : (100 : ℚ) * (m : ℚ) / 2 ^ k = 100 * ((m : ℚ) * ((2 : ℚ) ^ k)⁻¹) := by
      field_simp
    rw [← hx]
    exact hr

/-- Within the stated sizes the hundredths printed are nearest to the exact quotient. -/
theorem AverageLettersPerWord.alpw_near (A W : Nat) (hW : 0 < W) (hW2 : W < 2 ^ 53)
    (hA : 100 * A < 2 ^ 52) :
    ∃ m e, AverageLettersPerWord.alpw A W = Float64.finite m e ∧
      |(hundredths m e : ℚ) / 100 - (A : ℚ) / (W : ℚ)| ≤ 1 / 200 := by
  obtain ⟨mW, eW, hw1, hw2, hw3⟩ := Float64.ofInt_exact W hW hW2
  have hmW : mW ≠ 0 := by omega
  have hgt : W > 0 := hW
  simp only [AverageLettersPerWord.alpw, hgt, if_true, hw1]
  by_cases hA0 : A = 0
  · subst hA0
    have h0 : Float64.ofInt 0 = Float64.finite 0 0 := by decide
    refine ⟨0, 0, by simp [h0, Float64.div, hmW], ?_⟩
    have hh : hundredths 0 0 = 0 := by decide
    rw [hh]
    norm_num
  · have hApos : 0 < A := Nat.pos_of_ne_zero hA0
    have hA53 : A < 2 ^ 53 := by norm_num at hA ⊢; omega
    obtain ⟨mA, eA, ha1, ha2, ha3⟩ := Float64.ofInt_exact A hApos hA53
    obtain ⟨m, e, hd1, hd2⟩ := Float64.div_spec mA mW eA eW ha2 hw2
    rw [ha3, hw3] at hd2
    refine ⟨m, e, by rw [ha1, hd1], ?_⟩
    have hh := hundredths_spec m e
    have hw : (0 : ℚ) < W := by exact_mod_cast hW
    have ha : (0 : ℚ) ≤ A := by exact_mod_cast (Nat.zero_le A)
    have hA' : (100 : ℚ) * A < 2 ^ 52 := by exact_mod_cast hA
    have hq : (A : ℚ) / (W : ℚ) * W = A := div_mul_cancel₀ _ (ne_of_gt hw)
    have hq0 : (0 : ℚ) ≤ (A : ℚ) / (W : ℚ) := div_nonneg ha (le_of_lt hw)
    generalize (A : ℚ) / (W : ℚ) = q at hd2 hq hq0 ⊢
    generalize (m : ℚ) * (2 : ℚ) ^ e = v at hd2 hh
    generalize hundredths m e = h at hh ⊢
    rw [abs_le] at hd2 hh
    obtain ⟨hv1, hv2⟩ := hd2
    obtain ⟨hh1, hh2⟩ := hh
    norm_num at hv1 hv2 hA'
    have hup : (h : ℚ) ≤ 100 * q + 100 * q / 9007199254740992 + 1 / 2 := by linarith
    have hlo : 100 * q - 100 * q / 9007199254740992 - 1 / 2 ≤ (h : ℚ) := by linarith
    have hupw := mul_le_mul_of_nonneg_right hup (le_of_lt hw)
    have hlow := mul_le_mul_of_nonneg_right hlo (le_of_lt hw)
    have e1 : (100 * q + 100 * q / 9007199254740992 + 1 / 2) * (W : ℚ) =
        100 * A + 100 * A / 9007199254740992 + W / 2 := by rw [← hq]; ring
    have e2 : (100 * q - 100 * q / 9007199254740992 - 1 / 2) * (W : ℚ) =
        100 * A - 100 * A / 9007199254740992 - W / 2 := by rw [← hq]; ring
    rw [e1] at hupw
    rw [e2] at hlow
    have hzu : (((2 * ((h : ℤ) * (W : ℤ) - 100 * (A : ℤ)) : ℤ)) : ℚ) < (((W : ℤ) + 1 : ℤ) : ℚ) := by
      push_cast
      linarith
    have hzl : (((-((W : ℤ) + 1) : ℤ)) : ℚ) < (((2 * ((h : ℤ) * (W : ℤ) - 100 * (A : ℤ))) : ℤ) : ℚ) := by
      push_cast
      linarith
    have hzu' : 2 * ((h : ℤ) * (W : ℤ) - 100 * (A : ℤ)) < (W : ℤ) + 1 := by exact_mod_cast hzu
    have hzl' : -((W : ℤ) + 1) < 2 * ((h : ℤ) * (W : ℤ) - 100 * (A : ℤ)) := by exact_mod_cast hzl
    have hz1 : 2 * ((h : ℤ) * (W : ℤ) - 100 * (A : ℤ)) ≤ (W : ℤ) := by linarith
    have hz2 : -(W : ℤ) ≤ 2 * ((h : ℤ) * (W : ℤ) - 100 * (A : ℤ)) := by linarith
    have hz1' : (2 : ℚ) * ((h : ℚ) * (W : ℚ) - 100 * (A : ℚ)) ≤ (W : ℚ) := by exact_mod_cast hz1
    have hz2' : -(W : ℚ) ≤ (2 : ℚ) * ((h : ℚ) * (W : ℚ) - 100 * (A : ℚ)) := by
      exact_mod_cast hz2
    have k1 : (h : ℚ) - 100 * q ≤ 1 / 2 := by
      by_contra hc
      push_neg at hc
      have := mul_lt_mul_of_pos_right hc hw
      rw [sub_mul, mul_assoc, hq] at this
      linarith
    have k2 : -(1 / 2) ≤ (h : ℚ) - 100 * q := by
      by_contra hc
      push_neg at hc
      have := mul_lt_mul_of_pos_right hc hw
      rw [sub_mul, mul_assoc, hq] at this
      linarith
    rw [abs_le]
    constructor <;> linarith

theorem AverageLettersPerWord_eq (T : UnicodeTables) (L : List String) :
    AverageLettersPerWord T L =
      Output.averageLettersPerWord (AverageLettersPerWord.alpw (totalLetters T L) (totalWords L)) := by
  simp [AverageLettersPerWord, AverageLettersPerWord.counters_eq]

/-- C3 as the specification words it fails.  On a text of 3 letters and 40
words the exact quotient is 0.075, which rounded to two decimal places is
0.08 (halves up, or halves to even), but the `float64` quotient lies below
0.075 and `AverageLettersPerWord` prints 0.07.  For counters of 900251485777414
letters and 366598926889 words it prints 2455.68, farther than 0.005 from
the exact quotient, whose nearest two-decimal value is 2455.69. -/
theorem AverageLettersPerWord_not_rounded_quotient :
    totalLetters noTables tieLines = 3 ∧ totalWords tieLines = 40 ∧
    AverageLettersPerWord noTables tieLines =
      Output.averageLettersPerWord (Float64.finite 5404319552844595 (-56)) ∧
    (AverageLettersPerWord noTables tieLines).text =
      "The average number of letters per word is: 0.07\n" ∧
    (Float64.finite 5404319552844595 (-56)).toRat < 3 / 40 ∧
    hundredths 5404319552844595 (-56) = 7 ∧
    roundHalfUp (100 * 3) 40 = 8 ∧ roundHalfEven (100 * 3) 40 = 8 ∧
    formatF2 (AverageLettersPerWord.alpw 900251485777414 366598926889) = "2455.68" ∧
    roundHalfUp (100 * 900251485777414) 366598926889 = 245569 ∧
    roundHalfEven (100 * 900251485777414) 366598926889 = 245569 ∧
    366598926889 < 2 * (100 * 900251485777414 - 245568 * 366598926889) := by
  refine ⟨by decide, by decide, by decide, by decide, by norm_num [Float64.toRat], by decide,
    by decide, by decide, by decide, by decide, by decide, by decide⟩

/-- C3, amended: with `A` the number of letters and `W` the number of tokens
of the lines `L`, `AverageLettersPerWord` passes to `Printf` the value 0
without dividing when `W = 0` (the line shows 0.00), and otherwise the
`float64` quotient of `A` by `W`, which `%.2f` prints rounded to hundredths;
for `W < 2^53` and `100 * A < 2^52` the value printed is within 0.005 of
`A / W`, so it is a nearest two-decimal value, either neighbour being
possible when `A / W` is exactly halfway (3 / 40 prints 0.07, 1 / 40 prints
0.03); 10 letters and 4 words print 2.50. -/
theorem AverageLettersPerWord_report (T : UnicodeTables) (L : List String) :
    AverageLettersPerWord T L =
      Output.averageLettersPerWord (AverageLettersPerWord.alpw (totalLetters T L) (totalWords L)) ∧
    (totalWords L = 0 →
      AverageLettersPerWord T L = Output.averageLettersPerWord (Float64.finite 0 0) ∧
      (AverageLettersPerWord T L).text = "The average number of letters per word is: 0.00\n") ∧
    (0 < totalWords L → totalWords L < 2 ^ 53 → 100 * totalLetters T L < 2 ^ 52 →
      ∃ m e, AverageLettersPerWord T L = Output.averageLettersPerWord (Float64.finite m e) ∧
        |(hundredths m e : ℚ) / 100 - (totalLetters T L : ℚ) / (totalWords L : ℚ)| ≤ 1 / 200 ∧
        (AverageLettersPerWord T L).text =
          "The average number of letters per word is: " ++ toString (hundredths m e / 100) ++
            "." ++ twoDigits (hundredths m e % 100) ++ "\n") ∧
    formatF2 (AverageLettersPerWord.alpw 10 4) = "2.50" ∧
    formatF2 (AverageLettersPerWord.alpw 3 40) = "0.07" ∧
    formatF2 (AverageLettersPerWord.alpw 1 40) = "0.03" := by
  refine ⟨AverageLettersPerWord_eq T L, ?_, ?_, by decide, by decide, by decide⟩
  · intro hW
    have h : AverageLettersPerWord T L = Output.averageLettersPerWord (Float64.finite 0 0) := by
      rw [AverageLettersPerWord_eq, hW]
      simp [AverageLettersPerWord.alpw]
    refine ⟨h, ?_⟩
    rw [h]
    decide
  · intro h1 h2 h3
    obtain ⟨m, e, h4, h5⟩ := AverageLettersPerWord.alpw_near _ _ h1 h2 h3
    have h : AverageLettersPerWord T L = Output.averageLettersPerWord (Float64.finite m e) := by
      rw [AverageLettersPerWord_eq, h4]
    refine ⟨m, e, h, h5, ?_⟩
    rw [h]
    rfl

/-- Witness for C3: the fox text, 35 letters and 9 words. -/
theorem AverageLettersPerWord_report_witness :
    0 < totalWords foxLines ∧ totalWords foxLines < 2 ^ 53 ∧
    100 * totalLetters noTables foxLines < 2 ^ 52 ∧
    ∃ m e, AverageLettersPerWord noTables foxLines =
        Output.averageLettersPerWord (Float64.finite m e) ∧
      |(hundredths m e : ℚ) / 100 - (totalLetters noTables foxLines : ℚ) /
        (totalWords foxLines : ℚ)| ≤ 1 / 200 ∧
      (AverageLettersPerWord noTables foxLines).text =
        "The average number of letters per word is: " ++ toString (hundredths m e / 100) ++
          "." ++ twoDigits (hundredths m e % 100) ++ "\n" :=
  ⟨by decide, by decide, by decide,
    (AverageLettersPerWord_report noTables foxLines).2.2.1 (by decide) (by decide) (by decide)⟩

/-! ### The invariant of `main` and its goroutines -/

theorem countP_range_update (p : Nat → Bool) (b : Bool) (k : Nat) :
    ∀ n, k < n →
      (List.range n).countP (Function.update p k b) + (if p k = true then 1 else 0) =
        (List.range n).countP p + (if b = true then 1 else 0) := by
  have hfar : ∀ n, n ≤ k →
      (List.range n).countP (Function.update p k b) = (List.range n).countP p := by
    intro n hn
    apply List.countP_congr
    intro x hx
    have hxk : x ≠ k := by
      have := List.mem_range.mp hx
      omega
    simp [Function.update_noteq hxk]
  intro n
  induction n with
  | zero => intro h; omega
  | succ n ih =>
    intro h
    rw [List.range_succ, List.countP_append, List.countP_append]
    by_cases hk : k < n
    · have hne : n ≠ k := by omega
      have := ih hk
      simp only [List.countP_singleton, Function.update_noteq hne]
      omega
    · have hkn : k = n := by omega
      subst hkn
      rw [hfar k (le_refl k)]
      simp only [List.countP_singleton, Function.update_same]
      cases p k <;> cases b <;> simp

theorem pending_congr (s t : State) (n : Nat)
    (h : ∀ k, k < n →
      ((t.goroutine k).status = Status.returned ↔ (s.goroutine k).status = Status.returned)) :
    pending t n = pending s n := by
  unfold pending
  apply List.countP_congr
  intro k hk
  have := h k (List.mem_range.mp hk)
  simp [this]

theorem pending_all (s : State) (n : Nat)
    (h : ∀ k, k < n → (s.goroutine k).status ≠ Status.returned) : pending s n = n := by
  unfold pending
  have : (List.range n).countP (fun k => decide ((s.goroutine k).status ≠ Status.returned)) =
      (List.range n).length := by
    rw [List.countP_eq_length]
    intro k hk
    simpa using h k (List.mem_range.mp hk)
  rw [this, List.length_range]

theorem pending_zero (s : State) (n : Nat) (h : pending s n = 0) :
    ∀ k, k < n → (s.goroutine k).status = Status.returned := by
  intro k hk
  unfold pending at h
  have := List.countP_eq_zero.mp h k (List.mem_range.mpr hk)
  simpa using this

theorem pending_pos (s : State) (n : Nat) (h : 0 < pending s n) :
    ∃ k, k < n ∧ (s.goroutine k).status ≠ Status.returned := by
  unfold pending at h
  obtain ⟨k, hk, hp⟩ := List.countP_pos_iff.mp h
  exact ⟨k, List.mem_range.mp hk, by simpa using hp⟩

theorem pending_return (s : State) (n k : Nat) (g : Goroutine) (hk : k < n)
    (hs : (s.goroutine k).status ≠ Status.returned) (hg : g.status = Status.returned)
    (c : Int) (pc : MainPc) :
    pending ⟨pc, c, s.closed, Function.update s.goroutine k g⟩ n + 1 = pending s n := by
  unfold pending
  have hfun : (fun j => decide ((Function.update s.goroutine k g j).status ≠ Status.returned)) =
      Function.update (fun j => decide ((s.goroutine j).status ≠ Status.returned)) k false := by
    funext j
    by_cases hj : j = k
    · subst hj; simp [hg]
    · simp [Function.update_noteq hj]
  have := countP_range_update
    (fun j => decide ((s.goroutine j).status ≠ Status.returned)) false k n hk
  simp only [hfun]
  simp only [hs, ne_eq, not_false_eq_true, decide_True, if_true] at this
  simpa using this


theorem GoroutineInv_of_eq (stats : List Stat) (L : List String) (s t : State) (k : Nat)
    (h : GoroutineInv stats L s k)
    (hg : t.goroutine k = s.goroutine k) (hc : s.closed k = true → t.closed k = true) :
    GoroutineInv stats L t k := by
  unfold GoroutineInv at h ⊢
  rw [hg]
  cases hst : (s.goroutine k).status <;> simp only [hst] at h ⊢
  · exact h
  · exact h
  · exact ⟨hc h.1, h.2⟩
  · exact ⟨hc h.1, h.2⟩

theorem stepMain_inv (stats : List Stat) (L : List String) (s t : State)
    (h : Inv stats L s) (hs : stepMain stats L s = some t) : Inv stats L t := by
  obtain ⟨pc, c, cl, g⟩ := s
  obtain ⟨hG, hM, hC⟩ := h
  cases pc with
  | startStats =>
    simp only [stepMain, Option.some.injEq] at hs
    subst hs
    simp only [MainInv] at hM
    obtain ⟨hc0, hM⟩ := hM
    subst hc0
    refine ⟨fun k hk => GoroutineInv_of_eq stats L _ _ k (hG k hk) rfl (fun x => x), ?_, ?_⟩
    · simp only [MainInv]
      exact ⟨Nat.zero_le _, fun k hk => ⟨(hM k hk).2, fun hlt => absurd hlt (Nat.not_lt_zero _),
        fun _ => (hM k hk).1⟩⟩
    · intro _
      rw [pending_all _ _ (fun k hk => by simp [(hM k hk).1])]
      simp
  | spawn j =>
    simp only [MainInv] at hM
    obtain ⟨hj, hM⟩ := hM
    by_cases hlt : j < stats.length
    · simp only [stepMain, hlt, if_true, Option.some.injEq] at hs
      subst hs
      have hjn : (g j).status = Status.notStarted := (hM j hlt).2.2 (le_refl j)
      have hGj := hG j hlt
      simp only [GoroutineInv, hjn] at hGj
      refine ⟨?_, ?_, ?_⟩
      · intro k hk
        by_cases hkj : k = j
        · subst hkj
          simp only [GoroutineInv, Function.update_same]
          exact ⟨hGj.2.1, hGj.2.2⟩
        · exact GoroutineInv_of_eq stats L _ _ k (hG k hk) (by simp [Function.update_noteq hkj])
            (fun x => x)
      · simp only [MainInv]
        refine ⟨hlt, fun k hk => ⟨(hM k hk).1, ?_, ?_⟩⟩
        · intro hk1
          by_cases hkj : k = j
          · subst hkj
            simp [hGj.1]
          · simp only [Function.update_noteq hkj]
            exact (hM k hk).2.1 (by omega)
        · intro hk1
          have hkj : k ≠ j := by omega
          simp only [Function.update_noteq hkj]
          exact (hM k hk).2.2 (by omega)
      · intro _
        refine (hC (by simp)).trans ?_
        congr 1
        symm
        apply pending_congr
        intro k _
        by_cases hkj : k = j
        · subst hkj
          simp [hjn]
        · simp [Function.update_noteq hkj]
    · simp only [stepMain, hlt, if_false, Option.some.injEq] at hs
      subst hs
      refine ⟨fun k hk => GoroutineInv_of_eq stats L _ _ k (hG k hk) rfl (fun x => x), ?_, ?_⟩
      · simp only [MainInv]
        refine ⟨Nat.zero_le _, [], rfl, fun k hk => ⟨(hM k hk).1, ?_⟩⟩
        have := (hM k hk).2.1 (by omega)
        simp [this.1, this.2]
      · intro _
        exact hC (by simp)
  | send scanner j =>
    simp only [MainInv] at hM
    obtain ⟨hj, pre, hL, hM⟩ := hM
    cases scanner with
    | nil =>
      simp only [stepMain, Option.some.injEq] at hs
      subst hs
      refine ⟨fun k hk => GoroutineInv_of_eq stats L _ _ k (hG k hk) rfl (fun x => x), ?_, ?_⟩
      · simp only [MainInv]
        refine ⟨Nat.zero_le _, fun k hk => ⟨fun hlt => absurd hlt (Nat.not_lt_zero _),
          fun _ => ⟨(hM k hk).1, (hM k hk).2.1⟩, by simp [(hM k hk).2.1], fun _ => ?_⟩⟩
        rw [(hM k hk).2.2, hL]
        simp
      · intro _
        exact hC (by simp)
    | cons line rest =>
      by_cases hlt : j < stats.length
      · by_cases hr : (g j).status = Status.receiving ∧ cl j = false
        · simp only [stepMain, hlt, if_true, hr, and_self, Option.some.injEq] at hs
          subst hs
          refine ⟨?_, ?_, ?_⟩
          · intro k hk
            by_cases hkj : k = j
            · subst hkj
              have hGk := hG k hk
              simp only [GoroutineInv, hr.1] at hGk
              simpa [GoroutineInv, hr.1] using hGk
            · exact GoroutineInv_of_eq stats L _ _ k (hG k hk)
                (by simp [Function.update_noteq hkj]) (fun x => x)
          · simp only [MainInv]
            refine ⟨hlt, pre, hL, fun k hk => ⟨(hM k hk).1, ?_, ?_⟩⟩
            · by_cases hkj : k = j
              · subst hkj
                simp [hr.1]
              · simp only [Function.update_noteq hkj]
                exact (hM k hk).2.1
            · by_cases hkj : k = j
              · subst hkj
                simp only [Function.update_same]
                rw [(hM k hk).2.2]
                simp
              · simp only [Function.update_noteq hkj]
                rw [(hM k hk).2.2]
                have : (k < j + 1) ↔ (k < j) := by omega
                simp only [this]
          · intro _
            refine (hC (by simp)).trans ?_
            congr 1
            symm
            apply pending_congr
            intro k _
            by_cases hkj : k = j
            · subst hkj
              simp [hr.1]
            · simp [Function.update_noteq hkj]
        · simp only [stepMain, hlt, if_true, hr, if_false] at hs
          exact absurd hs (by simp)
      · simp only [stepMain, hlt, if_false, Option.some.injEq] at hs
        subst hs
        refine ⟨fun k hk => GoroutineInv_of_eq stats L _ _ k (hG k hk) rfl (fun x => x), ?_, ?_⟩
        · simp only [MainInv]
          refine ⟨Nat.zero_le _, pre ++ [line], by simp [hL], fun k hk =>
            ⟨(hM k hk).1, (hM k hk).2.1, ?_⟩⟩
          rw [(hM k hk).2.2]
          have : k < j := by omega
          simp [this]
        · intro _
          exact hC (by simp)
  | close j =>
    simp only [MainInv] at hM
    obtain ⟨hj, hM⟩ := hM
    by_cases hlt : j < stats.length
    · simp only [stepMain, hlt, if_true, Option.some.injEq] at hs
      subst hs
      refine ⟨?_, ?_, ?_⟩
      · intro k hk
        refine GoroutineInv_of_eq stats L _ _ k (hG k hk) rfl ?_
        intro hc
        by_cases hkj : k = j
        · subst hkj; simp
        · simp only [Function.update_noteq hkj]
          exact hc
      · simp only [MainInv]
        refine ⟨hlt, fun k hk => ⟨?_, ?_, (hM k hk).2.2.1, (hM k hk).2.2.2⟩⟩
        · intro hk1
          by_cases hkj : k = j
          · subst hkj; simp
          · simp only [Function.update_noteq hkj]
            exact (hM k hk).1 (by omega)
        · intro hk1
          have hkj : k ≠ j := by omega
          simp only [Function.update_noteq hkj]
          exact (hM k hk).2.1 (by omega)
      · intro _
        exact hC (by simp)
    · simp only [stepMain, hlt, if_false, Option.some.injEq] at hs
      subst hs
      refine ⟨fun k hk => GoroutineInv_of_eq stats L _ _ k (hG k hk) rfl (fun x => x), ?_, ?_⟩
      · simp only [MainInv]
        exact fun k hk => ⟨(hM k hk).1 (by omega), (hM k hk).2.2.1, (hM k hk).2.2.2⟩
      · intro _
        exact hC (by simp)
  | wait =>
    by_cases hc0 : c = 0
    · subst hc0
      simp only [stepMain, if_true, Option.some.injEq] at hs
      subst hs
      have hp := hC (by simp)
      simp only at hp
      refine ⟨fun k hk => GoroutineInv_of_eq stats L _ _ k (hG k hk) rfl (fun x => x), ?_, ?_⟩
      · simp only [MainInv]
        exact pending_zero ⟨MainPc.wait, 0, cl, g⟩ stats.length (by exact_mod_cast hp.symm)
      · intro _
        exact hp
    · simp only [stepMain, hc0, if_false] at hs
      exact absurd hs (by simp)
  | exited =>
    simp only [stepMain] at hs
    exact absurd hs (by simp)

theorem MainInv_goroutine_step (stats : List Stat) (L : List String) (pc : MainPc) (c c2 : Int)
    (cl : Nat → Bool) (g : Nat → Goroutine) (k : Nat) (g2 : Goroutine)
    (hM : MainInv stats L ⟨pc, c, cl, g⟩) (hk : k < stats.length) (hcl : cl k = true)
    (hold : (g k).status ≠ Status.returned)
    (h1 : g2.status ≠ Status.notStarted) (h2 : g2.status ≠ Status.receiving) :
    MainInv stats L ⟨pc, c2, cl, Function.update g k g2⟩ := by
  have hfalse : cl k = false → False := fun h => by rw [hcl] at h; exact absurd h (by simp)
  cases pc with
  | startStats =>
    simp only [MainInv] at hM
    exact absurd (hM.2 k hk).2 (fun h => hfalse h)
  | spawn j =>
    simp only [MainInv] at hM
    exact absurd (hM.2 k hk).1 (fun h => hfalse h)
  | send scanner j =>
    simp only [MainInv] at hM
    obtain ⟨_, pre, _, hM⟩ := hM
    exact absurd (hM k hk).1 (fun h => hfalse h)
  | close j =>
    simp only [MainInv] at hM ⊢
    obtain ⟨hj, hM⟩ := hM
    have hkj : k < j := by
      by_contra hc
      exact hfalse ((hM k hk).2.1 (by omega)).1
    refine ⟨hj, fun i hi => ?_⟩
    by_cases hik : i = k
    · subst hik
      simp only [Function.update_same]
      exact ⟨fun _ => hcl, fun hji => absurd hji (by omega), h1, fun h => absurd h h2⟩
    · simp only [Function.update_noteq hik]
      exact hM i hi
  | wait =>
    simp only [MainInv] at hM ⊢
    intro i hi
    by_cases hik : i = k
    · subst hik
      simp only [Function.update_same]
      exact ⟨hcl, h1, fun h => absurd h h2⟩
    · simp only [Function.update_noteq hik]
      exact hM i hi
  | exited =>
    simp only [MainInv] at hM
    exact absurd (hM k hk) hold

theorem got_of_closed (stats : List Stat) (L : List String) (s : State) (k : Nat)
    (hM : MainInv stats L s) (hk : k < stats.length) (hcl : s.closed k = true)
    (hst : (s.goroutine k).status = Status.receiving) : (s.goroutine k).got = L := by
  obtain ⟨pc, c, cl, g⟩ := s
  have hfalse : cl k = false → False := fun h => by
    simp only at hcl
    rw [hcl] at h
    exact absurd h (by simp)
  cases pc with
  | startStats =>
    simp only [MainInv] at hM
    exact absurd (hM.2 k hk).2 (fun h => hfalse h)
  | spawn j =>
    simp only [MainInv] at hM
    exact absurd (hM.2 k hk).1 (fun h => hfalse h)
  | send scanner j =>
    simp only [MainInv] at hM
    obtain ⟨_, pre, _, hM⟩ := hM
    exact absurd (hM k hk).1 (fun h => hfalse h)
  | close j =>
    simp only [MainInv] at hM
    exact (hM.2 k hk).2.2.2 hst
  | wait =>
    simp only [MainInv] at hM
    exact (hM k hk).2.2 hst
  | exited =>
    simp only [MainInv] at hM
    have := hM k hk
    simp only at hst
    rw [hst] at this
    exact absurd this (by simp)

theorem stepGoroutine_inv (stats : List Stat) (L : List String) (s t : State) (k : Nat)
    (h : Inv stats L s) (hs : stepGoroutine stats s k = some t) : Inv stats L t := by
  unfold stepGoroutine at hs
  cases hstat : stats[k]? with
  | none => simp [hstat] at hs
  | some stat =>
    have hk : k < stats.length := (List.getElem?_eq_some_iff.mp hstat).1
    simp only [hstat] at hs
    obtain ⟨hG, hM, hC⟩ := h
    have hGk := hG k hk
    cases hst : (s.goroutine k).status with
    | notStarted => simp [hst] at hs
    | returned => simp [hst] at hs
    | receiving =>
      simp only [hst] at hs
      by_cases hcl : s.closed k = true
      · simp only [hcl, if_true, Option.some.injEq] at hs
        subst hs
        have hgot := got_of_closed stats L s k hM hk hcl hst
        simp only [GoroutineInv, hst] at hGk
        obtain ⟨pc, c, cl, g⟩ := s
        refine ⟨?_, ?_, ?_⟩
        · intro i hi
          by_cases hik : i = k
          · subst hik
            simp only [GoroutineInv, Function.update_same]
            simp only at hgot hcl hGk
            exact ⟨hcl, ⟨stat, hstat, by rw [hGk.1, hgot]; rfl⟩, hGk.2⟩
          · exact GoroutineInv_of_eq stats L _ _ i (hG i hi)
              (by simp [Function.update_noteq hik]) (fun x => x)
        · exact MainInv_goroutine_step stats L pc c c cl g k _ hM hk hcl
            (by simp only at hst; rw [hst]; simp) (by simp) (by simp)
        · intro hpc
          refine (hC hpc).trans ?_
          congr 1
          symm
          apply pending_congr
          intro i _
          by_cases hik : i = k
          · subst hik
            simp only at hst
            simp [hst]
          · simp [Function.update_noteq hik]
      · simp [hcl] at hs
    | printed =>
      simp only [hst, Option.some.injEq] at hs
      subst hs
      simp only [GoroutineInv, hst] at hGk
      obtain ⟨pc, c, cl, g⟩ := s
      simp only at hst hGk
      refine ⟨?_, ?_, ?_⟩
      · intro i hi
        by_cases hik : i = k
        · subst hik
          simp only [GoroutineInv, Function.update_same]
          exact ⟨hGk.1, hGk.2.1, by rw [hGk.2.2]⟩
        · exact GoroutineInv_of_eq stats L _ _ i (hG i hi)
            (by simp [Function.update_noteq hik]) (fun x => x)
      · exact MainInv_goroutine_step stats L pc c (c - 1) cl g k _ hM hk hGk.1
          (by rw [hst]; simp) (by simp) (by simp)
      · intro hpc
        have hp := pending_return ⟨pc, c, cl, g⟩ stats.length k
          { g k with dones := (g k).dones + 1, status := Status.returned } hk
          (by simp only; rw [hst]; simp) rfl (c - 1) pc
        have hc := hC hpc
        simp only at hc hp ⊢
        omega

theorem init_inv (stats : List Stat) (L : List String) : Inv stats L State.init := by
  refine ⟨fun k _ => ?_, ?_, fun h => absurd rfl h⟩
  · simp [GoroutineInv, State.init]
  · simp [MainInv, State.init]

theorem step_inv (stats : List Stat) (L : List String) (s t : State) (a : Action)
    (h : Inv stats L s) (hs : step stats L s a = some t) : Inv stats L t := by
  cases a with
  | main => exact stepMain_inv stats L s t h hs
  | goroutine k => exact stepGoroutine_inv stats L s t k h hs

theorem run_inv (stats : List Stat) (L : List String) (schedule : List Action) :
    ∀ s t, Inv stats L s → run stats L s schedule = some t → Inv stats L t := by
  induction schedule with
  | nil =>
    intro s t h hr
    simp only [run, Option.some.injEq] at hr
    rw [← hr]
    exact h
  | cons a schedule ih =>
    intro s t h hr
    simp only [run] at hr
    cases hstep : step stats L s a with
    | none => simp [hstep] at hr
    | some s2 =>
      simp only [hstep] at hr
      exact ih s2 t (step_inv stats L s s2 a h hstep) hr

/-- In a state that satisfies the invariant some step is enabled until `main` has returned. -/
theorem inv_progress (stats : List Stat) (L : List String) (s : State) (h : Inv stats L s)
    (hpc : s.pc ≠ MainPc.exited) : ∃ a, (step stats L s a).isSome = true := by
  obtain ⟨pc, c, cl, g⟩ := s
  obtain ⟨hG, hM, hC⟩ := h
  cases pc with
  | startStats => exact ⟨Action.main, by simp [step, stepMain]⟩
  | spawn j =>
    refine ⟨Action.main, ?_⟩
    by_cases hlt : j < stats.length <;> simp [step, stepMain, hlt]
  | send scanner j =>
    refine ⟨Action.main, ?_⟩
    simp only [MainInv] at hM
    obtain ⟨_, pre, _, hM⟩ := hM
    cases scanner with
    | nil => simp [step, stepMain]
    | cons line rest =>
      by_cases hlt : j < stats.length
      · simp [step, stepMain, hlt, (hM j hlt).1, (hM j hlt).2.1]
      · simp [step, stepMain, hlt]
  | close j =>
    refine ⟨Action.main, ?_⟩
    by_cases hlt : j < stats.length <;> simp [step, stepMain, hlt]
  | wait =>
    by_cases hc0 : c = 0
    · exact ⟨Action.main, by simp [step, stepMain, hc0]⟩
    · have hp := hC (by simp)
      simp only at hp
      have hpos : 0 < pending ⟨MainPc.wait, c, cl, g⟩ stats.length := by omega
      obtain ⟨k, hk, hst⟩ := pending_pos _ _ hpos
      simp only [MainInv] at hM
      obtain ⟨hcl, hns, _⟩ := hM k hk
      simp only at hst hcl hns
      refine ⟨Action.goroutine k, ?_⟩
      have hstat : stats[k]? = some stats[k] := List.getElem?_eq_getElem hk
      cases hs : (g k).status with
      | notStarted => exact absurd hs hns
      | returned => exact absurd hs hst
      | receiving => simp [step, stepGoroutine, hstat, hs, hcl]
      | printed => simp [step, stepGoroutine, hstat, hs]
  | exited => exact absurd rfl hpc

/-- What the invariant says of one goroutine, whatever its status. -/
theorem GoroutineInv_summary (stats : List Stat) (L : List String) (s : State) (k : Nat)
    (stat : Stat) (hstat : stats[k]? = some stat) (h : GoroutineInv stats L s k) :
    ((s.goroutine k).out = [] ∨ ((s.goroutine k).out = [stat.f L] ∧ s.closed k = true)) ∧
    (s.goroutine k).dones ≤ (s.goroutine k).out.length ∧ (s.goroutine k).dones ≤ 1 ∧
    ((s.goroutine k).dones = 0 ↔ (s.goroutine k).status ≠ Status.returned) ∧
    ((s.goroutine k).status = Status.returned →
      (s.goroutine k).out = [stat.f L] ∧ (s.goroutine k).dones = 1) := by
  unfold GoroutineInv at h
  cases hst : (s.goroutine k).status <;> simp only [hst] at h
  · simp [h.2.1, h.2.2]
  · simp [h.1, h.2]
  · obtain ⟨h1, ⟨st2, h2, h3⟩, h4⟩ := h
    rw [hstat] at h2
    injection h2 with h2
    subst h2
    simp [h1, h3, h4]
  · obtain ⟨h1, ⟨st2, h2, h3⟩, h4⟩ := h
    rw [hstat] at h2
    injection h2 with h2
    subst h2
    simp [h1, h3, h4]

/-! ### Every execution is finite -/

theorem sum_range_update (f : Nat → Nat) (v k : Nat) :
    ∀ n, k < n →
      ((List.range n).map (Function.update f k v)).sum + f k =
        ((List.range n).map f).sum + v := by
  have hfar : ∀ n, n ≤ k →
      (List.range n).map (Function.update f k v) = (List.range n).map f := by
    intro n hn
    apply List.map_congr_left
    intro x hx
    have hxk : x ≠ k := by
      have := List.mem_range.mp hx
      omega
    simp [Function.update_noteq hxk]
  intro n
  induction n with
  | zero => intro h; omega
  | succ n ih =>
    intro h
    rw [List.range_succ, List.map_append, List.map_append, List.sum_append, List.sum_append]
    by_cases hk : k < n
    · have hne : n ≠ k := by omega
      have := ih hk
      simp only [List.map_singleton, List.sum_singleton, Function.update_noteq hne]
      omega
    · have hkn : k = n := by omega
      subst hkn
      rw [hfar k (le_refl k)]
      simp only [List.map_singleton, List.sum_singleton, Function.update_same]
      omega

theorem stepsLeft_goroutines_update (g : Nat → Goroutine) (k n : Nat) (g2 : Goroutine)
    (hk : k < n) :
    ((List.range n).map fun i => ((Function.update g k g2) i).status.stepsLeft).sum +
        (g k).status.stepsLeft =
      ((List.range n).map fun i => (g i).status.stepsLeft).sum + g2.status.stepsLeft := by
  have hfun : (fun i => ((Function.update g k g2) i).status.stepsLeft) =
      Function.update (fun i => (g i).status.stepsLeft) k g2.status.stepsLeft := by
    funext i
    by_cases hi : i = k
    · subst hi; simp
    · simp [Function.update_noteq hi]
  rw [hfun]
  exact sum_range_update (fun i => (g i).status.stepsLeft) g2.status.stepsLeft k n hk

theorem step_stepsLeft (stats : List Stat) (L : List String) (s t : State) (a : Action)
    (hs : step stats L s a = some t) : stepsLeft stats L t + 1 ≤ stepsLeft stats L s := by
  obtain ⟨pc, c, cl, g⟩ := s
  cases a with
  | main =>
    simp only [step] at hs
    cases pc with
    | startStats =>
      simp only [stepMain, Option.some.injEq] at hs
      subst hs
      simp only [stepsLeft, MainPc.stepsLeft]
      omega
    | spawn j =>
      by_cases hlt : j < stats.length
      · simp only [stepMain, hlt, if_true, Option.some.injEq] at hs
        subst hs
        have := stepsLeft_goroutines_update g j stats.length
          ⟨Status.receiving, (g j).got, (g j).out, (g j).dones⟩ hlt
        have e2 : (⟨Status.receiving, (g j).got, (g j).out, (g j).dones⟩ :
            Goroutine).status.stepsLeft = 2 := rfl
        rw [e2] at this
        simp only [stepsLeft, MainPc.stepsLeft]
        have h2 : (g j).status.stepsLeft ≤ 2 := by
          cases (g j).status <;> simp [Status.stepsLeft]
        omega
      · simp only [stepMain, hlt, if_false, Option.some.injEq] at hs
        subst hs
        simp only [stepsLeft, MainPc.stepsLeft]
        omega
    | send scanner j =>
      cases scanner with
      | nil =>
        simp only [stepMain, Option.some.injEq] at hs
        subst hs
        simp only [stepsLeft, MainPc.stepsLeft]
        omega
      | cons line rest =>
        by_cases hlt : j < stats.length
        · by_cases hr : (g j).status = Status.receiving ∧ cl j = false
          · simp only [stepMain, hlt, if_true, hr, and_self, Option.some.injEq] at hs
            subst hs
            have := stepsLeft_goroutines_update g j stats.length
              ⟨Status.receiving, (g j).got ++ [line], (g j).out, (g j).dones⟩ hlt
            have e1 : (g j).status.stepsLeft = 2 := by rw [hr.1]; rfl
            have e2 : (⟨Status.receiving, (g j).got ++ [line], (g j).out, (g j).dones⟩ :
                Goroutine).status.stepsLeft = 2 := rfl
            rw [e1, e2] at this
            simp only [stepsLeft, MainPc.stepsLeft]
            omega
          · simp only [stepMain, hlt, if_true, hr, if_false] at hs
            exact absurd hs (by simp)
        · simp only [stepMain, hlt, if_false, Option.some.injEq] at hs
          subst hs
          simp only [stepsLeft, MainPc.stepsLeft, List.length_cons]
          have : (rest.length + 1) * (stats.length + 1) =
              rest.length * (stats.length + 1) + stats.length + 1 := by ring
          omega
    | close j =>
      by_cases hlt : j < stats.length
      · simp only [stepMain, hlt, if_true, Option.some.injEq] at hs
        subst hs
        simp only [stepsLeft, MainPc.stepsLeft]
        omega
      · simp only [stepMain, hlt, if_false, Option.some.injEq] at hs
        subst hs
        simp only [stepsLeft, MainPc.stepsLeft]
        omega
    | wait =>
      by_cases hc0 : c = 0
      · simp only [stepMain, hc0, if_true, Option.some.injEq] at hs
        subst hs
        simp only [stepsLeft, MainPc.stepsLeft]
        omega
      · simp only [stepMain, hc0, if_false] at hs
        exact absurd hs (by simp)
    | exited =>
      simp only [stepMain] at hs
      exact absurd hs (by simp)
  | goroutine k =>
    simp only [step, stepGoroutine] at hs
    cases hstat : stats[k]? with
    | none => simp [hstat] at hs
    | some stat =>
      have hk : k < stats.length := (List.getElem?_eq_some_iff.mp hstat).1
      simp only [hstat] at hs
      cases hst : (g k).status with
      | notStarted => simp [hst] at hs
      | returned => simp [hst] at hs
      | receiving =>
        simp only [hst] at hs
        by_cases hcl : cl k = true
        · simp only [hcl, if_true, Option.some.injEq] at hs
          subst hs
          have := stepsLeft_goroutines_update g k stats.length
            ⟨Status.printed, (g k).got, (g k).out ++ [stat.f (g k).got], (g k).dones⟩ hk
          have e1 : (g k).status.stepsLeft = 2 := by rw [hst]; rfl
          have e2 : (⟨Status.printed, (g k).got, (g k).out ++ [stat.f (g k).got], (g k).dones⟩ :
              Goroutine).status.stepsLeft = 1 := rfl
          rw [e1, e2] at this
          simp only [stepsLeft]
          omega
        · simp [hcl] at hs
      | printed =>
        simp only [hst, Option.some.injEq] at hs
        subst hs
        have := stepsLeft_goroutines_update g k stats.length
          ⟨Status.returned, (g k).got, (g k).out, (g k).dones + 1⟩ hk
        have e1 : (g k).status.stepsLeft = 1 := by rw [hst]; rfl
        have e2 : (⟨Status.returned, (g k).got, (g k).out, (g k).dones + 1⟩ :
            Goroutine).status.stepsLeft = 0 := rfl
        rw [e1, e2] at this
        simp only [stepsLeft]
        omega

theorem run_stepsLeft (stats : List Stat) (L : List String) (schedule : List Action) :
    ∀ s t, run stats L s schedule = some t →
      stepsLeft stats L t + schedule.length ≤ stepsLeft stats L s := by
  induction schedule with
  | nil =>
    intro s t hr
    simp only [run, Option.some.injEq] at hr
    rw [hr]
    simp
  | cons a schedule ih =>
    intro s t hr
    simp only [run] at hr
    cases hstep : step stats L s a with
    | none => simp [hstep] at hr
    | some s2 =>
      simp only [hstep] at hr
      have h1 := step_stepsLeft stats L s s2 a hstep
      have h2 := ih s2 t hr
      simp only [List.length_cons]
      omega

/-- C6: in every execution of `main` on a readable file with lines `L`, that
is after every schedule of steps of `main` and of the four goroutines: the
first step, `waitGroup.Add`, sets the counter to 4, and from then on the
counter is the number of accumulators that have not called `Done`; each
accumulator has printed nothing or exactly its own report on `L`, the latter
only with its channel closed, and has called `Done` at most once and only
after printing; when `main` has returned from `waitGroup.Wait()`, each of the
four has printed its report exactly once and called `Done` exactly once;
until then some step is always possible, and no execution has more than
`5 * len(L) + 33` steps, so every execution that is run to its end ends with
`main` returned and the four reports printed. -/
theorem main_waits_for_all (T : UnicodeTables)
    (range : LetterFrequencyMap → List (Char × Nat)) (L : List String)
    (schedule : List Action) (s : State)
    (h : run (mainStats T range) L State.init schedule = some s) :
    (step (mainStats T range) L State.init Action.main).map State.counter = some 4 ∧
    (s.pc ≠ MainPc.startStats →
      s.counter = (((List.range 4).countP fun k => (s.goroutine k).dones == 0 : Nat) : Int)) ∧
    (∀ k stat, (mainStats T range)[k]? = some stat →
      ((s.goroutine k).out = [] ∨ ((s.goroutine k).out = [stat.f L] ∧ s.closed k = true)) ∧
      (s.goroutine k).dones ≤ (s.goroutine k).out.length ∧ (s.goroutine k).dones ≤ 1) ∧
    (s.pc = MainPc.exited →
      (s.goroutine 0).out = [LineCount L] ∧ (s.goroutine 1).out = [WordCount L] ∧
      (s.goroutine 2).out = [MostCommonLetter T range L] ∧
      (s.goroutine 3).out = [AverageLettersPerWord T L] ∧
      ∀ k, k < 4 → (s.goroutine k).dones = 1) ∧
    (s.pc ≠ MainPc.exited → ∃ a, (step (mainStats T range) L s a).isSome = true) ∧
    schedule.length ≤ 5 * L.length + 33 := by
  have hI := run_inv (mainStats T range) L schedule State.init s (init_inv _ L) h
  have hlen : (mainStats T range).length = 4 := rfl
  have hsum : ∀ k stat, (mainStats T range)[k]? = some stat → _ :=
    fun k stat hstat => GoroutineInv_summary (mainStats T range) L s k stat hstat
      (hI.goroutines k (List.getElem?_eq_some_iff.mp hstat).1)
  refine ⟨rfl, ?_, ?_, ?_, ?_, ?_⟩
  · intro hpc
    rw [hI.count hpc, hlen]
    congr 1
    unfold pending
    apply List.countP_congr
    intro k hk
    have hk4 : k < (mainStats T range).length := by rw [hlen]; exact List.mem_range.mp hk
    have := (hsum k _ (List.getElem?_eq_getElem hk4)).2.2.2.1
    simp [this]
  · intro k stat hstat
    have := hsum k stat hstat
    exact ⟨this.1, this.2.1, this.2.2.1⟩
  · intro hpc
    have hM := hI.main
    simp only [MainInv, hpc] at hM
    have h0 := (hsum 0 ⟨LineCount, 0⟩ rfl).2.2.2.2 (hM 0 (by rw [hlen]; omega))
    have h1 := (hsum 1 ⟨WordCount, 1⟩ rfl).2.2.2.2 (hM 1 (by rw [hlen]; omega))
    have h2 := (hsum 2 ⟨MostCommonLetter T range, 2⟩ rfl).2.2.2.2 (hM 2 (by rw [hlen]; omega))
    have h3 := (hsum 3 ⟨AverageLettersPerWord T, 3⟩ rfl).2.2.2.2 (hM 3 (by rw [hlen]; omega))
    refine ⟨h0.1, h1.1, h2.1, h3.1, ?_⟩
    intro k hk
    have hk4 : k < (mainStats T range).length := by rw [hlen]; exact hk
    exact ((hsum k _ (List.getElem?_eq_getElem hk4)).2.2.2.2 (hM k hk4)).2
  · intro hpc
    exact inv_progress (mainStats T range) L s hI hpc
  · have hb := run_stepsLeft (mainStats T range) L schedule State.init s h
    have h0 : stepsLeft (mainStats T range) L State.init = L.length * 5 + 33 := by
      simp [stepsLeft, State.init, MainPc.stepsLeft, mainStats, Status.stepsLeft]
    omega

/-- Witness for C6: a schedule on the fox text in which the goroutines finish
in the order 0, 3, 2, 1 and `main` then returns. -/
theorem main_waits_for_all_witness :
    ∃ s, run (mainStats noTables id) foxLines State.init exampleSchedule = some s ∧
      s.pc = MainPc.exited ∧
      (s.goroutine 0).out = [LineCount foxLines] ∧ (s.goroutine 1).out = [WordCount foxLines] ∧
      (s.goroutine 2).out = [MostCommonLetter noTables id foxLines] ∧
      (s.goroutine 3).out = [AverageLettersPerWord noTables foxLines] ∧
      ∀ k, k < 4 → (s.goroutine k).dones = 1 := by
  have hpc : (run (mainStats noTables id) foxLines State.init exampleSchedule).map State.pc =
      some MainPc.exited := by decide
  cases hr : run (mainStats noTables id) foxLines State.init exampleSchedule with
  | none => simp [hr] at hpc
  | some s =>
    simp only [hr, Option.map_some', Option.some.injEq] at hpc
    exact ⟨s, rfl, hpc, (main_waits_for_all noTables id foxLines exampleSchedule s hr).2.2.2.1 hpc⟩

end Filestats
